import Mathlib

/-!
Verification of the ledger aggregation and CSV interchange engine of the
personal finance dashboard (source: the root `App.jsx`, given here as
`src/unnamed/part_000`).  Strings are embedded as `List Char` so that every
operation is structurally recursive and kernel-evaluable; JavaScript numbers
are embedded as `ℚ`.  Each definition models the JavaScript function of the
same (or clearly corresponding) name in the source.
-/

/-- Strings of the JavaScript source, embedded as lists of characters. -/
abbrev Str := List Char

/-- Whitespace test used by the model of `String.prototype.trim` and of the
leading-whitespace skip of `parseFloat`: the ECMAScript WhiteSpace and
LineTerminator characters — TAB (9), LF (10), VT (11), FF (12), CR (13),
SPACE (32), NBSP (160), OGHAM SPACE MARK (5760), the space separators
U+2000–U+200A (8192–8202), LINE SEPARATOR (8232), PARAGRAPH SEPARATOR
(8233), NARROW NO-BREAK SPACE (8239), MEDIUM MATHEMATICAL SPACE (8287),
IDEOGRAPHIC SPACE (12288) and ZWNBSP/BOM (65279). -/
def isWSChar (c : Char) : Bool :=
  decide ((9 ≤ c.toNat ∧ c.toNat ≤ 13) ∨ c.toNat = 32 ∨ c.toNat = 160 ∨
    c.toNat = 5760 ∨ (8192 ≤ c.toNat ∧ c.toNat ≤ 8202) ∨ c.toNat = 8232 ∨
    c.toNat = 8233 ∨ c.toNat = 8239 ∨ c.toNat = 8287 ∨ c.toNat = 12288 ∨
    c.toNat = 65279)

/-- Model of `String.prototype.trim`: remove leading and trailing whitespace. -/
def trimChars (s : Str) : Str :=
  ((s.dropWhile isWSChar).reverse.dropWhile isWSChar).reverse

/-- Model of `String.prototype.toLowerCase` (ASCII range, which covers the
header names and type tags the source compares against). -/
def lowerChars (s : Str) : Str :=
  s.map Char.toLower

/-- Model of `String.prototype.split(sep)` for a one-character separator:
`"a,,b"` splits into `["a", "", "b"]`, and the empty string splits into
`[""]`. -/
def splitOnChar (sep : Char) (s : Str) : List Str :=
  s.foldr
    (fun c acc =>
      match acc with
      | [] => [[c]]
      | cur :: rest => if c = sep then [] :: cur :: rest else (c :: cur) :: rest)
    [[]]

/-- Model of `Array.prototype.join(sep)` for a one-character separator. -/
def joinWithChar (sep : Char) : List Str → Str
  | [] => []
  | [s] => s
  | s :: rest => s ++ sep :: joinWithChar sep rest

/-- Remove a single trailing carriage return, if present. -/
def dropTrailingCR (s : Str) : Str :=
  if s.getLast? = some '\r' then s.dropLast else s

/-- Apply `f` to every element except the last one. -/
def mapAllButLast (f : Str → Str) : List Str → List Str
  | [] => []
  | [s] => [s]
  | s :: rest => f s :: mapAllButLast f rest

/-- Model of `text.split(/\r?\n/)`: split on `'\n'`, where each separator may
consume one immediately preceding `'\r'`.  A carriage return not followed by a
newline is kept, including at the very end of the text. -/
def jsSplitLines (s : Str) : List Str :=
  mapAllButLast dropTrailingCR (splitOnChar '\n' s)

/-- JavaScript `x || d` for string values: the empty string is falsy. -/
def jsOrStr (s d : Str) : Str :=
  if s = [] then d else s

/-- JavaScript `x || d` for number values with `x` a (non-NaN) number:
`0` is falsy. -/
def jsOrQ (x d : ℚ) : ℚ :=
  if x = 0 then d else x

/-- JavaScript `x || 0` applied to a `parseFloat` result, where `none`
stands for NaN. -/
def jsOrZero : Option ℚ → ℚ
  | none => 0
  | some x => x

/-- Characters compared by their code points, as `localeCompare` does on the
zero-padded ASCII `YYYY-MM` keys the source sorts. -/
def lexLeChars : Str → Str → Bool
  | [], _ => true
  | _ :: _, [] => false
  | a :: as, b :: bs =>
    if a.toNat < b.toNat then true
    else if b.toNat < a.toNat then false
    else lexLeChars as bs

/-- First-seen-order deduplication of a list of keys (the iteration order of a
JavaScript `Map` built by repeated `set`). -/
def firstSeenAux (seen : List Str) : List Str → List Str
  | [] => []
  | k :: ks =>
    if seen.contains k then firstSeenAux seen ks
    else k :: firstSeenAux (k :: seen) ks

/-- Distinct keys of a list, in order of first occurrence. -/
def firstSeenKeys (ks : List Str) : List Str :=
  firstSeenAux [] ks

/-- Numeric value of a decimal digit character. -/
def digitVal (c : Char) : ℕ :=
  c.toNat - 48

/-- Value of a big-endian string of decimal digit characters. -/
def digitsToNat (ds : Str) : ℕ :=
  ds.foldl (fun n c => 10 * n + digitVal c) 0

/-- Little-endian decimal digits of `n`, with explicit fuel (any `fuel ≥ n`
suffices); `0` yields the empty list. -/
def natDigitsRev : ℕ → ℕ → List ℕ
  | 0, _ => []
  | fuel + 1, n => if n = 0 then [] else n % 10 :: natDigitsRev fuel (n / 10)

/-- Big-endian decimal digit characters of `n` (`0` prints as `"0"`). -/
def natToChars (n : ℕ) : Str :=
  if n = 0 then ['0']
  else ((natDigitsRev n n).reverse).map (fun d => Char.ofNat (48 + d))

/-- Pad a digit string with leading zeros up to length `k`. -/
def leftPad0 (k : ℕ) (s : Str) : Str :=
  List.replicate (k - s.length) '0' ++ s

/-- Smallest `k` with `d ∣ 10 ^ k`, when one exists below `d + 1` (which holds
exactly when `d` has only `2` and `5` as prime factors); junk value `0`
otherwise. -/
def findK (d : ℕ) : ℕ :=
  ((List.range (d + 1)).find? (fun k => decide (d ∣ 10 ^ k))).getD 0

/-- A rational that is exactly representable as a finite decimal string.
Every finite IEEE double is of this form, so this carves out the image of the
JavaScript numbers inside `ℚ`. -/
def IsDecimal (q : ℚ) : Prop :=
  q.den ∣ 10 ^ q.den

instance (q : ℚ) : Decidable (IsDecimal q) := by
  unfold IsDecimal; infer_instance

/-- Model of JavaScript `Number.prototype.toString` on decimal-representable
rationals, in plain (non-exponent) notation: optional minus sign, integer
digits, and a fractional part without trailing zeros.  (The exponent notation
JavaScript switches to beyond `1e21`/below `1e-7`, and the non-finite values,
are outside the modelled range.) -/
def numToString (q : ℚ) : Str :=
  let sgn : Str := if q < 0 then ['-'] else []
  let n := q.num.natAbs
  let d := q.den
  let k := findK d
  let m := n * (10 ^ k / d)
  let ip := natToChars (m / 10 ^ k)
  let fp : Str := if k = 0 then [] else '.' :: leftPad0 k (natToChars (m % 10 ^ k))
  sgn ++ ip ++ fp

/-- Exponent suffix accepted by `parseFloat` (`e`/`E`, optional sign, digits);
an `e` not followed by at least one digit contributes exponent `0`, matching
the longest-valid-prefix rule (`parseFloat("1e") = 1`). -/
def parseExpPart (s : Str) : ℤ :=
  match s with
  | 'e' :: rest | 'E' :: rest =>
    match rest with
    | '-' :: ds => -(digitsToNat (ds.takeWhile Char.isDigit) : ℤ)
    | '+' :: ds => (digitsToNat (ds.takeWhile Char.isDigit) : ℤ)
    | ds => (digitsToNat (ds.takeWhile Char.isDigit) : ℤ)
  | _ => 0

/-- The unsigned stage of `parseFloat`: the longest prefix of the form
`digits [. digits] [e[+-]digits]`; `none` when no digit is found. -/
def parseMantissa (s2 : Str) : Option ℚ :=
  let ip := s2.takeWhile Char.isDigit
  let r1 := s2.dropWhile Char.isDigit
  let fp : Str := if r1.head? = some '.' then r1.tail.takeWhile Char.isDigit else []
  let r2 : Str := if r1.head? = some '.' then r1.tail.dropWhile Char.isDigit else r1
  if ip = [] ∧ fp = [] then none
  else some ((digitsToNat (ip ++ fp) : ℚ) / 10 ^ fp.length * 10 ^ parseExpPart r2)

/-- Model of JavaScript `parseFloat`: skip leading whitespace, read an
optional sign and then the unsigned mantissa stage; `none` models NaN.
Non-finite results (`"Infinity"`) are outside the modelled range and also
yield `none`. -/
def parseJSFloat (s : Str) : Option ℚ :=
  let s1 := s.dropWhile isWSChar
  let neg : Bool := s1.head? = some '-'
  let s2 : Str := if s1.head? = some '-' ∨ s1.head? = some '+' then s1.tail else s1
  (parseMantissa s2).map (fun v => if neg then -v else v)

/-- A transaction record as produced by CSV parsing or form entry, without the
generated identifier (`importCSV` attaches a fresh id to each parsed row). -/
structure TxData where
  date : Str
  description : Str
  amount : ℚ
  category : Str
deriving DecidableEq, Repr

/-- A stored transaction: `TxData` plus the generated unique identifier
(`crypto.randomUUID()` in the source, modelled as a counter-issued number). -/
structure Transaction where
  id : ℕ
  date : Str
  description : Str
  amount : ℚ
  category : Str
deriving DecidableEq, Repr

/-- A savings goal. -/
structure Goal where
  id : ℕ
  name : Str
  target : ℚ
  current : ℚ
  due : Str
deriving DecidableEq, Repr

/-- One bucket of the monthly trend: a year-month key with accumulated income
and expense sums. -/
structure MonthEntry where
  ym : Str
  income : ℚ
  expenses : ℚ
deriving DecidableEq, Repr

/-- `importCSV`: the non-empty lines of the input
(`text.split(/\r?\n/).filter(Boolean)`). -/
def linesOf (text : Str) : List Str :=
  (jsSplitLines text).filter (fun l => l ≠ [])

/-- `importCSV`: the candidate header columns
(`lines[0].toLowerCase().split(",").map(s => s.trim())`). -/
def colsOf (text : Str) : List Str :=
  (splitOnChar ',' (lowerChars ((linesOf text).getD 0 []))).map trimChars

/-- `importCSV`: the first line is a header iff all four required column names
appear among its comma-separated cells. -/
def hasHeaderOf (text : Str) : Bool :=
  ["date", "description", "amount", "category"].all
    (fun h => (colsOf text).contains h.data)

/-- `importCSV`: `cols.indexOf(name)`, as an option instead of `-1`. -/
def colIdx (text : Str) (name : Str) : Option ℕ :=
  (colsOf text).indexOf? name

/-- `importCSV`: a `type` column exists iff a header was detected and it
contains a `type` cell. -/
def hasTypeOf (text : Str) : Bool :=
  hasHeaderOf text && (colIdx text "type".data).isSome

/-- `importCSV`: the data lines (all lines, or all but the header). -/
def dataRowsOf (text : Str) : List Str :=
  if hasHeaderOf text then (linesOf text).drop 1 else linesOf text

/-- `importCSV`: the cells of one data line
(`line.split(",").map(s => s.trim())`). -/
def partsOf (line : Str) : List Str :=
  (splitOnChar ',' line).map trimChars

/-- `importCSV`: the column position of a named field — its header index when
a header was detected, the fixed position otherwise. -/
def fieldIdx (text : Str) (name : Str) (pos : ℕ) : ℕ :=
  if hasHeaderOf text then (colIdx text name).getD 0 else pos

/-- `importCSV`: the raw `date` cell of a line (`parts[…] || ""`). -/
def dateFieldOf (text line : Str) : Str :=
  jsOrStr ((partsOf line).getD (fieldIdx text "date".data 0) []) []

/-- `importCSV`: the raw `description` cell of a line (`parts[…] || ""`). -/
def descFieldOf (text line : Str) : Str :=
  jsOrStr ((partsOf line).getD (fieldIdx text "description".data 1) []) []

/-- `importCSV`: the raw `amount` cell of a line (`parts[…] || "0"`). -/
def amountFieldOf (text line : Str) : Str :=
  jsOrStr ((partsOf line).getD (fieldIdx text "amount".data 2) []) "0".data

/-- `importCSV`: the raw `category` cell of a line (`parts[…] || "Other"`). -/
def catFieldOf (text line : Str) : Str :=
  jsOrStr ((partsOf line).getD (fieldIdx text "category".data 3) []) "Other".data

/-- `importCSV`: the lower-cased `type` cell of a line, or `""` when no `type`
column exists (`hasType ? (parts[idx("type")] || "").toLowerCase() : ""`). -/
def typeFieldOf (text line : Str) : Str :=
  if hasTypeOf text then
    lowerChars (jsOrStr ((partsOf line).getD ((colIdx text "type".data).getD 0) []) [])
  else []

/-- `importCSV`: one parsed data line.  The amount is `parseFloat(cell) || 0`;
with a `type` column the sign is forced from the type tag
(`"exp"`-prefixed ⇒ `-abs`, otherwise `+abs`), and without one the parsed
sign is kept as-is.  The date is truncated to 10 characters. -/
def parseLineOf (text line : Str) : TxData :=
  let amt : ℚ := jsOrZero (parseJSFloat (amountFieldOf text line))
  let amount : ℚ :=
    if hasTypeOf text then
      if "exp".data.isPrefixOf (typeFieldOf text line) then -|amt| else |amt|
    else amt
  { date := (dateFieldOf text line).take 10
    description := descFieldOf text line
    amount := amount
    category := catFieldOf text line }

/-- `importCSV`: the full parsed row sequence of a CSV text (the `parsed`
array of the source, before ids are attached and the rows are prepended to
the transaction collection). -/
def importParse (text : Str) : List TxData :=
  (dataRowsOf text).map (parseLineOf text)

/-- `cleanCSV`: RFC-4180-style escaping — double internal quotes, and wrap in
quotes iff the field contains a quote, comma, or newline. -/
def cleanCSV (s : Str) : Str :=
  let needsQuotes := s.any (fun c => c = '"' || c = ',' || c = '\n')
  let escaped := s.foldr (fun c acc => (if c = '"' then ['"', '"'] else [c]) ++ acc) []
  if needsQuotes then '"' :: (escaped ++ ['"']) else escaped

/-- `exportCSV`: the derived `type` column (`amount < 0 ? "expense" : "income"`). -/
def typeColOf (t : TxData) : Str :=
  if t.amount < 0 then "expense".data else "income".data

/-- `exportCSV`: one CSV row — only description and category are escaped. -/
def rowOf (t : TxData) : Str :=
  joinWithChar ','
    [t.date, cleanCSV t.description, numToString t.amount, cleanCSV t.category, typeColOf t]

/-- `exportCSV`: the text handed to the `Blob`
(`header + "\n" + rows.join("\n")`); the generated transaction ids are not
read, so export is a function of the `TxData` parts alone. -/
def exportText (l : List TxData) : Str :=
  "date,description,amount,category,type".data ++ '\n' :: joinWithChar '\n' (l.map rowOf)

/-- The active-view predicate: a transaction passes if the month filter is
empty or matches the date's year-month prefix, and the category filter is
`"All"` or matches the category. -/
def txMatches (fMonth fCat : Str) (t : Transaction) : Bool :=
  (fMonth == ([] : Str) || t.date.take 7 == fMonth) &&
  (fCat == "All".data || t.category == fCat)

/-- `filteredTx`: the transactions passing the active month/category filter. -/
def filteredTx (txs : List Transaction) (fMonth fCat : Str) : List Transaction :=
  txs.filter (txMatches fMonth fCat)

/-- `totals.byCat`: the grouping key (`t.category || "Uncategorized"`). -/
def byCatKey (t : Transaction) : Str :=
  jsOrStr t.category "Uncategorized".data

/-- `Map.prototype.set` on an insertion-ordered association list: an existing
key keeps its position and gets the summed value; a new key is appended. -/
def bucketAdd (m : List (Str × ℚ)) (k : Str) (v : ℚ) : List (Str × ℚ) :=
  if (m.map Prod.fst).contains k then
    m.map (fun p => if p.1 = k then (p.1, p.2 + v) else p)
  else m ++ [(k, v)]

/-- `totals.byCat`: the category-breakdown loop — expense transactions only,
absolute values summed per key into an insertion-ordered map. -/
def byCatFold (ts : List Transaction) : List (Str × ℚ) :=
  ts.foldl (fun m t => if t.amount < 0 then bucketAdd m (byCatKey t) |t.amount| else m) []

/-- The expense transactions (amount strictly negative) of a list. -/
def expensesOf (ts : List Transaction) : List Transaction :=
  ts.filter (fun t => t.amount < 0)

/-- Sum of `abs(amount)` over the transactions of a list with a given
breakdown key. -/
def sumAbsFor (ts : List Transaction) (k : Str) : ℚ :=
  ((ts.filter (fun t => byCatKey t = k)).map (fun t => |t.amount|)).sum

/-- The category breakdown exactly as the specification words it: one entry
per distinct category of the expense transactions, in first-seen order, with
the summed absolute amounts. -/
def categoryBreakdownSpec (ts : List Transaction) : List (Str × ℚ) :=
  (firstSeenKeys ((expensesOf ts).map byCatKey)).map
    (fun k => (k, sumAbsFor (expensesOf ts) k))

/-- `Map.prototype.set` for the monthly-trend map: an existing year-month
keeps its position, a new one is appended. -/
def monthSet (m : List MonthEntry) (e : MonthEntry) : List MonthEntry :=
  if (m.map MonthEntry.ym).contains e.ym then
    m.map (fun x => if x.ym = e.ym then e else x)
  else m ++ [e]

/-- `totals.byMonth`: one step of the trend loop — skip an empty year-month,
otherwise fetch (or create) the bucket and add to its income or expense sum
according to the sign of the amount. -/
def byMonthStep (acc : List MonthEntry) (t : Transaction) : List MonthEntry :=
  let ym := t.date.take 7
  if ym = [] then acc
  else
    let cur := (acc.find? (fun x => x.ym == ym)).getD ⟨ym, 0, 0⟩
    let upd :=
      if 0 ≤ t.amount then { cur with income := cur.income + t.amount }
      else { cur with expenses := cur.expenses + |t.amount| }
    monthSet acc upd

/-- `totals.byMonth`: the unsorted trend buckets, built over the full
unfiltered transaction collection. -/
def byMonthFold (txs : List Transaction) : List MonthEntry :=
  txs.foldl byMonthStep []

/-- Ascending order on trend buckets by their year-month key
(`(a, b) => a.ym.localeCompare(b.ym)`). -/
def ymLe (a b : MonthEntry) : Prop :=
  lexLeChars a.ym b.ym = true

instance : DecidableRel ymLe := fun a b => by unfold ymLe; infer_instance

/-- `totals.byMonth`: the sorted monthly trend.  (`Array.prototype.sort` with
a consistent comparator produces a sorted permutation; the buckets have
pairwise distinct keys, so any sorted permutation is this one.) -/
def byMonthOf (txs : List Transaction) : List MonthEntry :=
  List.insertionSort ymLe (byMonthFold txs)

/-- The record computed by the `totals` memo: filtered income/expense/net
sums, the filtered category breakdown, and the unfiltered monthly trend. -/
structure Totals where
  income : ℚ
  expenses : ℚ
  net : ℚ
  byCat : List (Str × ℚ)
  byMonth : List MonthEntry
deriving Repr

/-- The `totals` memo of the source, as a function of the transaction
collection and the two active filters. -/
def totalsOf (txs : List Transaction) (fMonth fCat : Str) : Totals :=
  let ftx := filteredTx txs fMonth fCat
  let income := (ftx.filter (fun t => 0 < t.amount)).foldl (fun s t => s + t.amount) 0
  let expenses := (ftx.filter (fun t => t.amount < 0)).foldl (fun s t => s + |t.amount|) 0
  { income := income
    expenses := expenses
    net := income - expenses
    byCat := byCatFold ftx
    byMonth := byMonthOf txs }

/-- `monthlyBudgetTarget`: `goals.reduce((s, g) => s + (g.target || 0) / 12, 0)`. -/
def monthlyBudgetTarget (gs : List Goal) : ℚ :=
  gs.foldl (fun s g => s + jsOrQ g.target 0 / 12) 0

/-- JavaScript `Math.round` (round half towards positive infinity). -/
def jsRound (q : ℚ) : ℤ :=
  ⌊q + 1 / 2⌋

/-- The goal progress percentage of the Goals Progress card:
`Math.min(100, Math.round(((g.current || 0) / (g.target || 1)) * 100))`. -/
def goalPct (g : Goal) : ℤ :=
  min 100 (jsRound (jsOrQ g.current 0 / jsOrQ g.target 1 * 100))

/-- The seed category list (`DEFAULT_CATEGORIES`). -/
def DEFAULT_CATEGORIES : List Str :=
  ["Groceries".data, "Dining Out".data, "Rent/Mortgage".data, "Utilities".data,
   "Transportation".data, "Health & Fitness".data, "Entertainment".data,
   "Shopping".data, "Travel".data, "Other".data, "Income".data]

/-- The argument record of `addGoal` (fields of the goal form). -/
structure GoalData where
  name : Str
  target : ℚ
  current : ℚ
  due : Str
deriving DecidableEq, Repr

/-- The in-memory ledger state: the three collections plus the id counter
modelling `crypto.randomUUID`'s freshness. -/
structure Ledger where
  transactions : List Transaction
  goals : List Goal
  categories : List Str
  nextId : ℕ
deriving Repr

/-- `removeTransaction`: `prev.filter((t) => t.id !== id)`. -/
def removeTransaction (tid : ℕ) (txs : List Transaction) : List Transaction :=
  txs.filter (fun t => t.id != tid)

/-- `addTransaction`: prepend the new transaction with a fresh id. -/
def addTransactionL (d : TxData) (s : Ledger) : Ledger :=
  { s with
    transactions := ⟨s.nextId, d.date, d.description, d.amount, d.category⟩ :: s.transactions
    nextId := s.nextId + 1 }

/-- `removeTransaction` lifted to the ledger state. -/
def removeTransactionL (tid : ℕ) (s : Ledger) : Ledger :=
  { s with transactions := removeTransaction tid s.transactions }

/-- `addGoal`: prepend the new goal with a fresh id. -/
def addGoalL (g : GoalData) (s : Ledger) : Ledger :=
  { s with
    goals := ⟨s.nextId, g.name, g.target, g.current, g.due⟩ :: s.goals
    nextId := s.nextId + 1 }

/-- `removeGoal`: `prev.filter((g) => g.id !== id)`. -/
def removeGoalL (gid : ℕ) (s : Ledger) : Ledger :=
  { s with goals := s.goals.filter (fun g => g.id != gid) }

/-- `addCategory`: trim, then append if non-empty and not already present. -/
def addCategoryL (name : Str) (s : Ledger) : Ledger :=
  let trimmed := trimChars name
  if trimmed = [] then s
  else if s.categories.contains trimmed then s
  else { s with categories := s.categories ++ [trimmed] }

/-- `importCSV` lifted to the ledger state: no mutation when there is no
non-empty line, otherwise the parsed rows get fresh ids and are prepended to
the transaction collection (`[...parsed, ...prev]`). -/
def importCSVL (text : Str) (s : Ledger) : Ledger :=
  if linesOf text = [] then s
  else
    { s with
      transactions :=
        ((importParse text).enum.map
          (fun p => ⟨s.nextId + p.1, p.2.date, p.2.description, p.2.amount, p.2.category⟩))
          ++ s.transactions
      nextId := s.nextId + (importParse text).length }

/-- `resetAll` (past the UI confirmation): clear transactions and goals,
restore the seed categories. -/
def resetAllL (s : Ledger) : Ledger :=
  { s with transactions := [], goals := [], categories := DEFAULT_CATEGORIES }

/-- The mutating operations the UI can invoke on the ledger state. -/
inductive LedgerOp where
  | addTx (d : TxData)
  | rmTx (tid : ℕ)
  | addGoal (g : GoalData)
  | rmGoal (gid : ℕ)
  | addCat (name : Str)
  | importCSV (text : Str)
  | resetAll

/-- Interpretation of a ledger operation. -/
def applyOp : LedgerOp → Ledger → Ledger
  | .addTx d => addTransactionL d
  | .rmTx tid => removeTransactionL tid
  | .addGoal g => addGoalL g
  | .rmGoal gid => removeGoalL gid
  | .addCat name => addCategoryL name
  | .importCSV text => importCSVL text
  | .resetAll => resetAllL

/-- The fresh ledger state (empty collections, seed categories). -/
def initLedger : Ledger :=
  ⟨[], [], DEFAULT_CATEGORIES, 0⟩

/-- The ledger states reachable from the fresh state by the core operations. -/
inductive ReachableLedger : Ledger → Prop where
  | init : ReachableLedger initLedger
  | step (s : Ledger) (op : LedgerOp) :
      ReachableLedger s → ReachableLedger (applyOp op s)

/-- A category name is accounted for: registered, or one of the defaults the
data model names (`"Other"`, `"Uncategorized"`). -/
def CatOk (cats : List Str) (c : Str) : Prop :=
  c ∈ cats ∨ c = "Other".data ∨ c = "Uncategorized".data

instance (cats : List Str) (c : Str) : Decidable (CatOk cats c) := by
  unfold CatOk; infer_instance

/-- The claimed registry invariant: every stored transaction's category is
accounted for. -/
def CatInv (s : Ledger) : Prop :=
  ∀ t ∈ s.transactions, CatOk s.categories t.category

instance (s : Ledger) : Decidable (CatInv s) := by
  unfold CatInv; infer_instance

/-- Value of a little-endian list of decimal digits. -/
def valLE (ds : List ℕ) : ℕ :=
  ds.foldr (fun d acc => d + 10 * acc) 0

/-- A text field free of the separator-relevant characters named by the
round-trip property: commas, double quotes, and newlines. -/
def noSpecialChars (s : Str) : Prop :=
  ∀ c ∈ s, c ≠ ',' ∧ c ≠ '"' ∧ c ≠ '\n'

instance (s : Str) : Decidable (noSpecialChars s) := by
  unfold noSpecialChars; infer_instance

/-- The safe input subset on which CSV export followed by import is the
identity: description and category contain no comma/quote/newline and carry
no leading or trailing whitespace, the category is non-empty (a blank one
decodes to `"Other"`), the date is comma/newline-free, whitespace-stable and
at most 10 characters (import truncates), and the amount is
decimal-representable (as every JavaScript number is). -/
def SafeTx (t : TxData) : Prop :=
  noSpecialChars t.description ∧ noSpecialChars t.category ∧
  trimChars t.description = t.description ∧ trimChars t.category = t.category ∧
  t.category ≠ [] ∧
  (∀ c ∈ t.date, c ≠ ',' ∧ c ≠ '\n') ∧ trimChars t.date = t.date ∧
  t.date.length ≤ 10 ∧
  IsDecimal t.amount

instance (t : TxData) : Decidable (SafeTx t) := by
  unfold SafeTx; infer_instance

/-! ## Small helper lemmas -/

theorem jsOrQ_zero_right (x : ℚ) : jsOrQ x 0 = x := by
  unfold jsOrQ; split <;> simp_all

theorem jsOrStr_nil_right (s : Str) : jsOrStr s [] = s := by
  unfold jsOrStr; split <;> simp_all

theorem jsOrStr_of_ne_nil {s : Str} (h : s ≠ []) (d : Str) : jsOrStr s d = s := by
  unfold jsOrStr; simp [h]

theorem monthlyBudgetTarget_foldl (gs : List Goal) (a : ℚ) :
    gs.foldl (fun s g => s + jsOrQ g.target 0 / 12) a = a + (gs.map Goal.target).sum / 12 := by
  induction gs generalizing a with
  | nil => simp
  | cons g gs ih =>
    rw [List.foldl_cons, ih, List.map_cons, List.sum_cons, jsOrQ_zero_right, add_div]
    ring

/-- C7: the implied monthly target is the sum of all goal targets divided by
12, and it is invariant under any permutation of the goal list (and, being a
function of the goal list alone, independent of the month/category filter). -/
theorem monthlyBudgetTarget_eq_sum (gs : List Goal) (h : gs ≠ []) :
    monthlyBudgetTarget gs = (gs.map Goal.target).sum / 12 ∧
    ∀ gs', gs.Perm gs' → monthlyBudgetTarget gs' = monthlyBudgetTarget gs := by
  have key : ∀ l : List Goal, monthlyBudgetTarget l = (l.map Goal.target).sum / 12 := by
    intro l
    unfold monthlyBudgetTarget
    rw [monthlyBudgetTarget_foldl]
    simp
  refine ⟨key gs, fun gs' hp => ?_⟩
  rw [key gs', key gs]
  congr 1
  exact ((hp.map Goal.target).symm).sum_eq

theorem monthlyBudgetTarget_eq_sum_witness :
    ([⟨0, [], 12, 0, []⟩] : List Goal) ≠ [] ∧
    (monthlyBudgetTarget [⟨0, [], 12, 0, []⟩] =
        (([⟨0, [], 12, 0, []⟩] : List Goal).map Goal.target).sum / 12 ∧
      ∀ gs', ([⟨0, [], 12, 0, []⟩] : List Goal).Perm gs' →
        monthlyBudgetTarget gs' = monthlyBudgetTarget [⟨0, [], 12, 0, []⟩]) :=
  ⟨by decide, monthlyBudgetTarget_eq_sum _ (by decide)⟩

/-- C8: removing an id that no stored transaction carries leaves the
collection exactly unchanged, and deletion is idempotent. -/
theorem removeTransaction_absent_noop (txs : List Transaction) (tid : ℕ)
    (h : ∀ t ∈ txs, t.id ≠ tid) :
    removeTransaction tid txs = txs ∧
    removeTransaction tid (removeTransaction tid txs) = removeTransaction tid txs := by
  constructor
  · unfold removeTransaction
    apply List.filter_eq_self.2
    intro t ht
    simpa using h t ht
  · unfold removeTransaction
    apply List.filter_eq_self.2
    intro t ht
    exact (List.mem_filter.1 ht).2

theorem removeTransaction_absent_noop_witness :
    (∀ t ∈ ([⟨1, [], [], 0, []⟩] : List Transaction), t.id ≠ 2) ∧
    (removeTransaction 2 [⟨1, [], [], 0, []⟩] = [⟨1, [], [], 0, []⟩] ∧
      removeTransaction 2 (removeTransaction 2 [⟨1, [], [], 0, []⟩]) =
        removeTransaction 2 [⟨1, [], [], 0, []⟩]) :=
  ⟨by decide, removeTransaction_absent_noop _ _ (by decide)⟩

/-- C10: CSV import and transaction addition touch only the transaction
collection — the goal collection and the category registry are returned
unchanged (in particular, import never registers the category names it
encounters). -/
theorem import_addTx_frame (s : Ledger) (text : Str) (d : TxData) :
    (importCSVL text s).goals = s.goals ∧
    (importCSVL text s).categories = s.categories ∧
    (addTransactionL d s).goals = s.goals ∧
    (addTransactionL d s).categories = s.categories := by
  unfold importCSVL addTransactionL
  refine ⟨?_, ?_, rfl, rfl⟩ <;> split <;> rfl

/-- C6 (counterexample): the displayed progress is NOT
`min(100, round(current / max(target,1) * 100))` — the source divides by
`g.target || 1`, which for the goal `target = 1/2, current = 2/5` (both
non-negative) gives 80, while the claimed `max(target,1)` formula gives 40. -/
theorem goalPct_max_formula_refuted :
    (0 ≤ (Goal.mk 0 [] (1/2) (2/5) []).current ∧ 0 ≤ (Goal.mk 0 [] (1/2) (2/5) []).target) ∧
    goalPct (Goal.mk 0 [] (1/2) (2/5) []) ≠
      min 100 (jsRound ((Goal.mk 0 [] (1/2) (2/5) []).current /
        max (Goal.mk 0 [] (1/2) (2/5) []).target 1 * 100)) := by
  refine ⟨⟨by norm_num, by norm_num⟩, ?_⟩
  have hl : goalPct (Goal.mk 0 [] (1/2) (2/5) []) = 80 := by
    unfold goalPct jsOrQ jsRound
    norm_num [Int.floor_eq_iff]
  have hmax : max ((1:ℚ)/2) 1 = 1 := by norm_num
  have hr : min (100:ℤ) (jsRound ((2/5 : ℚ) / max ((1:ℚ)/2) 1 * 100)) = 40 := by
    rw [hmax]
    unfold jsRound
    norm_num [Int.floor_eq_iff]
  intro heq
  rw [show (Goal.mk 0 [] (1/2) (2/5) []).current = (2/5 : ℚ) from rfl,
    show (Goal.mk 0 [] (1/2) (2/5) []).target = (1/2 : ℚ) from rfl] at heq
  rw [hl, hr] at heq
  exact absurd heq (by decide)

/-- C6 (amended): for every goal with non-negative current and target, the
displayed progress equals `min(100, round(current / (target = 0 ? 1 : target)
* 100))` — the zero target (and only the zero target) is replaced by 1; in
particular `current = 2 * target` with positive target yields 100, and
`target = 0` with `current = 0` yields 0. -/
theorem goalPct_clamped (g : Goal) (hc : 0 ≤ g.current) (ht : 0 ≤ g.target) :
    goalPct g = min 100 (jsRound (g.current / (if g.target = 0 then 1 else g.target) * 100)) ∧
    (0 < g.target → g.current = 2 * g.target → goalPct g = 100) ∧
    (g.target = 0 → g.current = 0 → goalPct g = 0) := by
  have h1 : jsOrQ g.current 0 = g.current := jsOrQ_zero_right _
  refine ⟨?_, ?_, ?_⟩
  · unfold goalPct
    rw [h1]
    rfl
  · intro htpos hcur
    have ht0 : g.target ≠ 0 := ne_of_gt htpos
    unfold goalPct
    rw [h1, hcur, show jsOrQ g.target 1 = g.target from by unfold jsOrQ; simp [ht0]]
    rw [show 2 * g.target / g.target * 100 = 200 from by field_simp; ring]
    rw [show jsRound 200 = 200 from by unfold jsRound; norm_num [Int.floor_eq_iff]]
    decide
  · intro ht0 hc0
    unfold goalPct
    rw [h1, hc0, ht0]
    rw [show jsOrQ (0 : ℚ) 1 = 1 from by unfold jsOrQ; simp]
    norm_num [jsRound, Int.floor_eq_iff]

theorem goalPct_clamped_witness :
    (0 ≤ (Goal.mk 0 [] 0 0 []).current ∧ 0 ≤ (Goal.mk 0 [] 0 0 []).target) ∧
    goalPct (Goal.mk 0 [] 0 0 []) = 0 :=
  ⟨⟨by decide, by decide⟩,
    (goalPct_clamped (Goal.mk 0 [] 0 0 []) (by decide) (by decide)).2.2 (by decide) (by decide)⟩

/-- C1: when the first line is not detected as a header, or the detected
header has no `type` column, each parsed row's amount is exactly
`parseFloat(cell) || 0` — the literal sign of the amount field is preserved
(a positively-parsed cell stays positive, a negatively-parsed cell stays
negative; no absolute value is forced). -/
theorem importCSV_preserves_sign (text line : Str)
    (hty : hasTypeOf text = false) (hline : line ∈ dataRowsOf text) :
    (parseLineOf text line).amount = jsOrZero (parseJSFloat (amountFieldOf text line)) ∧
    ∀ q, parseJSFloat (amountFieldOf text line) = some q →
      (parseLineOf text line).amount = q ∧
      (0 < q → 0 < (parseLineOf text line).amount) ∧
      (q < 0 → (parseLineOf text line).amount < 0) := by
  have hamt : (parseLineOf text line).amount = jsOrZero (parseJSFloat (amountFieldOf text line)) := by
    unfold parseLineOf
    rw [hty]
    simp
  refine ⟨hamt, fun q hq => ?_⟩
  have hq' : (parseLineOf text line).amount = q := by
    rw [hamt, hq]
    rfl
  exact ⟨hq', fun h => hq' ▸ h, fun h => hq' ▸ h⟩

theorem importCSV_preserves_sign_witness :
    hasTypeOf "2024-01-05,Paycheck,1500,Income\n2024-01-06,Rent,-1200,Rent/Mortgage".data = false ∧
    "2024-01-06,Rent,-1200,Rent/Mortgage".data ∈
      dataRowsOf "2024-01-05,Paycheck,1500,Income\n2024-01-06,Rent,-1200,Rent/Mortgage".data ∧
    ((parseLineOf "2024-01-05,Paycheck,1500,Income\n2024-01-06,Rent,-1200,Rent/Mortgage".data
        "2024-01-06,Rent,-1200,Rent/Mortgage".data).amount =
      jsOrZero (parseJSFloat (amountFieldOf
        "2024-01-05,Paycheck,1500,Income\n2024-01-06,Rent,-1200,Rent/Mortgage".data
        "2024-01-06,Rent,-1200,Rent/Mortgage".data)) ∧
    ∀ q, parseJSFloat (amountFieldOf
        "2024-01-05,Paycheck,1500,Income\n2024-01-06,Rent,-1200,Rent/Mortgage".data
        "2024-01-06,Rent,-1200,Rent/Mortgage".data) = some q →
      (parseLineOf "2024-01-05,Paycheck,1500,Income\n2024-01-06,Rent,-1200,Rent/Mortgage".data
        "2024-01-06,Rent,-1200,Rent/Mortgage".data).amount = q ∧
      (0 < q → 0 < (parseLineOf "2024-01-05,Paycheck,1500,Income\n2024-01-06,Rent,-1200,Rent/Mortgage".data
        "2024-01-06,Rent,-1200,Rent/Mortgage".data).amount) ∧
      (q < 0 → (parseLineOf "2024-01-05,Paycheck,1500,Income\n2024-01-06,Rent,-1200,Rent/Mortgage".data
        "2024-01-06,Rent,-1200,Rent/Mortgage".data).amount < 0)) :=
  ⟨by decide, by decide, importCSV_preserves_sign _ _ (by decide) (by decide)⟩

/-- C2: when the detected header has a `type` column, each parsed row's
amount is the absolute value of the parsed cell, negated exactly when the
lower-cased type cell starts with `"exp"` — whatever sign the raw amount
field carried. -/
theorem importCSV_type_overrides_sign (text line : Str)
    (hty : hasTypeOf text = true) (hline : line ∈ dataRowsOf text) :
    (parseLineOf text line).amount =
      (if "exp".data.isPrefixOf (typeFieldOf text line)
       then -|jsOrZero (parseJSFloat (amountFieldOf text line))|
       else |jsOrZero (parseJSFloat (amountFieldOf text line))|) ∧
    ∀ q, parseJSFloat (amountFieldOf text line) = some q →
      ("exp".data.isPrefixOf (typeFieldOf text line) = true →
        (parseLineOf text line).amount = -|q|) ∧
      ("exp".data.isPrefixOf (typeFieldOf text line) = false →
        (parseLineOf text line).amount = |q|) := by
  have hamt : (parseLineOf text line).amount =
      (if "exp".data.isPrefixOf (typeFieldOf text line)
       then -|jsOrZero (parseJSFloat (amountFieldOf text line))|
       else |jsOrZero (parseJSFloat (amountFieldOf text line))|) := by
    unfold parseLineOf
    rw [hty]
    simp
  refine ⟨hamt, fun q hq => ⟨fun hpre => ?_, fun hpre => ?_⟩⟩
  · rw [hamt, hpre, hq]
    simp [jsOrZero]
  · rw [hamt, hpre, hq]
    simp [jsOrZero]

theorem importCSV_type_overrides_sign_witness :
    hasTypeOf "date,description,amount,category,type\n2024-02-01,Gym,45,Health & Fitness,expense".data = true ∧
    "2024-02-01,Gym,45,Health & Fitness,expense".data ∈
      dataRowsOf "date,description,amount,category,type\n2024-02-01,Gym,45,Health & Fitness,expense".data ∧
    ((parseLineOf "date,description,amount,category,type\n2024-02-01,Gym,45,Health & Fitness,expense".data
        "2024-02-01,Gym,45,Health & Fitness,expense".data).amount =
      (if "exp".data.isPrefixOf (typeFieldOf
            "date,description,amount,category,type\n2024-02-01,Gym,45,Health & Fitness,expense".data
            "2024-02-01,Gym,45,Health & Fitness,expense".data)
       then -|jsOrZero (parseJSFloat (amountFieldOf
            "date,description,amount,category,type\n2024-02-01,Gym,45,Health & Fitness,expense".data
            "2024-02-01,Gym,45,Health & Fitness,expense".data))|
       else |jsOrZero (parseJSFloat (amountFieldOf
            "date,description,amount,category,type\n2024-02-01,Gym,45,Health & Fitness,expense".data
            "2024-02-01,Gym,45,Health & Fitness,expense".data))|) ∧
    ∀ q, parseJSFloat (amountFieldOf
        "date,description,amount,category,type\n2024-02-01,Gym,45,Health & Fitness,expense".data
        "2024-02-01,Gym,45,Health & Fitness,expense".data) = some q →
      ("exp".data.isPrefixOf (typeFieldOf
          "date,description,amount,category,type\n2024-02-01,Gym,45,Health & Fitness,expense".data
          "2024-02-01,Gym,45,Health & Fitness,expense".data) = true →
        (parseLineOf "date,description,amount,category,type\n2024-02-01,Gym,45,Health & Fitness,expense".data
          "2024-02-01,Gym,45,Health & Fitness,expense".data).amount = -|q|) ∧
      ("exp".data.isPrefixOf (typeFieldOf
          "date,description,amount,category,type\n2024-02-01,Gym,45,Health & Fitness,expense".data
          "2024-02-01,Gym,45,Health & Fitness,expense".data) = false →
        (parseLineOf "date,description,amount,category,type\n2024-02-01,Gym,45,Health & Fitness,expense".data
          "2024-02-01,Gym,45,Health & Fitness,expense".data).amount = |q|)) :=
  ⟨by decide, by decide, importCSV_type_overrides_sign _ _ (by decide) (by decide)⟩

/-- C9 (counterexample): the category-registry invariant is NOT maintained in
every reachable state — importing the single CSV row `2024-01-01,x,5,Zebra`
into the fresh ledger is reachable, yet stores a transaction whose category
`"Zebra"` is neither registered nor a default name (import never registers
the categories it encounters). -/
theorem catInv_not_reachable_invariant :
    ReachableLedger (importCSVL "2024-01-01,x,5,Zebra".data initLedger) ∧
    ¬ CatInv (importCSVL "2024-01-01,x,5,Zebra".data initLedger) :=
  ⟨ReachableLedger.step initLedger (LedgerOp.importCSV "2024-01-01,x,5,Zebra".data)
      ReachableLedger.init,
    by decide⟩

/-- C9 (amended): the registry invariant is preserved by transaction removal,
goal addition and removal, category addition, reset, and by a transaction
addition whose category is registered or a default — but not by CSV import,
which stores whatever category names the text carries (see the
counterexample). -/
theorem catInv_preserved_without_import (s : Ledger) (hs : CatInv s)
    (tid gid : ℕ) (g : GoalData) (name : Str) (d : TxData) :
    CatInv (removeTransactionL tid s) ∧
    CatInv (addGoalL g s) ∧
    CatInv (removeGoalL gid s) ∧
    CatInv (addCategoryL name s) ∧
    CatInv (resetAllL s) ∧
    (CatOk s.categories d.category → CatInv (addTransactionL d s)) := by
  refine ⟨?_, ?_, ?_, ?_, ?_, ?_⟩
  · intro t ht
    exact hs t (List.mem_filter.1 ht).1
  · intro t ht
    exact hs t ht
  · intro t ht
    exact hs t ht
  · intro t ht
    have htx : (addCategoryL name s).transactions = s.transactions := by
      simp only [addCategoryL]
      split
      · rfl
      · split <;> rfl
    have hcats : ∀ c, CatOk s.categories c → CatOk (addCategoryL name s).categories c := by
      intro c hc
      rcases hc with h | h
      · left
        simp only [addCategoryL]
        split
        · exact h
        · split
          · exact h
          · exact List.mem_append_left _ h
      · exact Or.inr h
    rw [htx] at ht
    exact hcats _ (hs t ht)
  · intro t ht
    exact absurd ht (List.not_mem_nil t)
  · intro hd t ht
    rcases List.mem_cons.1 ht with h | h
    · subst h
      exact hd
    · exact hs t h

theorem catInv_preserved_without_import_witness :
    CatInv initLedger ∧
    (CatInv (removeTransactionL 0 initLedger) ∧
      CatInv (addGoalL ⟨[], 0, 0, []⟩ initLedger) ∧
      CatInv (removeGoalL 0 initLedger) ∧
      CatInv (addCategoryL [] initLedger) ∧
      CatInv (resetAllL initLedger) ∧
      (CatOk initLedger.categories (TxData.mk [] [] 0 "Other".data).category →
        CatInv (addTransactionL (TxData.mk [] [] 0 "Other".data) initLedger))) :=
  ⟨by decide, catInv_preserved_without_import initLedger (by decide) 0 0 ⟨[], 0, 0, []⟩ []
    (TxData.mk [] [] 0 "Other".data)⟩

theorem lexLe_total (x : Str) : ∀ y, lexLeChars x y = true ∨ lexLeChars y x = true := by
  induction x with
  | nil => intro y; left; rfl
  | cons a as ih =>
    intro y
    cases y with
    | nil => right; rfl
    | cons b bs =>
      unfold lexLeChars
      rcases Nat.lt_trichotomy a.toNat b.toNat with h | h | h
      · left
        simp [h]
      · have h2 : ¬ a.toNat < b.toNat := by omega
        have h3 : ¬ b.toNat < a.toNat := by omega
        simp only [h2, h3, if_false]
        exact ih bs
      · right
        simp [h]

theorem lexLe_trans (x : Str) :
    ∀ y z, lexLeChars x y = true → lexLeChars y z = true → lexLeChars x z = true := by
  induction x with
  | nil => intro y z h1 h2; rfl
  | cons a as ih =>
    intro y z h1 h2
    cases y with
    | nil => simp [lexLeChars] at h1
    | cons b bs =>
      cases z with
      | nil => simp [lexLeChars] at h2
      | cons c cs =>
        unfold lexLeChars at h1 h2 ⊢
        split_ifs at h1 h2 ⊢ <;>
          first
            | rfl
            | omega
            | (simp at h1)
            | (simp at h2)
            | (exact ih bs cs h1 h2)

theorem monthSet_mem (m : List MonthEntry) (e x : MonthEntry) (hx : x ∈ monthSet m e) :
    x ∈ m ∨ x = e := by
  unfold monthSet at hx
  split at hx
  · rcases List.mem_map.1 hx with ⟨x', hx', heq⟩
    by_cases hk : x'.ym = e.ym
    · right
      rw [if_pos hk] at heq
      exact heq.symm
    · left
      rw [if_neg hk] at heq
      exact heq ▸ hx'
  · rcases List.mem_append.1 hx with h | h
    · exact Or.inl h
    · exact Or.inr (List.mem_singleton.1 h)

theorem byMonthStep_ym (acc : List MonthEntry) (t : Transaction)
    (h : ∀ e ∈ acc, e.ym ≠ []) : ∀ e ∈ byMonthStep acc t, e.ym ≠ [] := by
  intro e he
  simp only [byMonthStep] at he
  by_cases hym : t.date.take 7 = ([] : Str)
  · rw [if_pos hym] at he
    exact h e he
  · rw [if_neg hym] at he
    have hcur : ((acc.find? (fun x => x.ym == t.date.take 7)).getD
        ⟨t.date.take 7, 0, 0⟩).ym = t.date.take 7 := by
      cases hf : acc.find? (fun x => x.ym == t.date.take 7) with
      | none => rfl
      | some x =>
        have := List.find?_some hf
        simp only [Option.getD_some]
        simpa using this
    rcases monthSet_mem _ _ _ he with h' | h'
    · exact h e h'
    · rw [h']
      split
      · simpa using hym ∘ (fun hh => by rw [← hcur]; exact hh)
      · simpa using hym ∘ (fun hh => by rw [← hcur]; exact hh)

theorem byMonthFold_ym (txs : List Transaction) : ∀ e ∈ byMonthFold txs, e.ym ≠ [] := by
  suffices h : ∀ acc, (∀ e ∈ acc, e.ym ≠ []) → ∀ e ∈ txs.foldl byMonthStep acc, e.ym ≠ [] by
    exact h [] (by simp)
  induction txs with
  | nil => exact fun acc hacc => hacc
  | cons t ts ih =>
    intro acc hacc
    rw [List.foldl_cons]
    exact ih _ (byMonthStep_ym acc t hacc)

/-- C5: the monthly trend of the `totals` memo is the same under any two
settings of the month and category filters (it is computed over the full
unfiltered collection), contains no bucket with an empty year-month, and is
sorted ascending by the year-month string. -/
theorem byMonth_filter_independent (txs : List Transaction) (m1 c1 m2 c2 : Str) :
    (totalsOf txs m1 c1).byMonth = (totalsOf txs m2 c2).byMonth ∧
    (∀ e ∈ (totalsOf txs m1 c1).byMonth, e.ym ≠ []) ∧
    List.Pairwise ymLe (totalsOf txs m1 c1).byMonth := by
  have hbm : (totalsOf txs m1 c1).byMonth = byMonthOf txs := rfl
  refine ⟨rfl, ?_, ?_⟩
  · intro e he
    rw [hbm] at he
    have hperm : (byMonthOf txs).Perm (byMonthFold txs) := List.perm_insertionSort ymLe _
    exact byMonthFold_ym txs e (hperm.mem_iff.1 he)
  · rw [hbm]
    haveI : IsTotal MonthEntry ymLe := ⟨fun a b => lexLe_total a.ym b.ym⟩
    haveI : IsTrans MonthEntry ymLe := ⟨fun a b c h1 h2 => lexLe_trans a.ym b.ym c.ym h1 h2⟩
    exact List.sorted_insertionSort ymLe (byMonthFold txs)

theorem mem_firstSeenAux (x : Str) : ∀ (l seen : List Str),
    x ∈ firstSeenAux seen l ↔ x ∈ l ∧ x ∉ seen := by
  intro l
  induction l with
  | nil => intro seen; simp [firstSeenAux]
  | cons k ks ih =>
    intro seen
    unfold firstSeenAux
    by_cases hk : k ∈ seen
    · rw [if_pos (by simpa using hk), ih]
      constructor
      · rintro ⟨h1, h2⟩
        exact ⟨List.mem_cons_of_mem _ h1, h2⟩
      · rintro ⟨h1, h2⟩
        rcases List.mem_cons.1 h1 with rfl | h1
        · exact absurd hk h2
        · exact ⟨h1, h2⟩
    · rw [if_neg (by simpa using hk)]
      constructor
      · intro hmem
        rcases List.mem_cons.1 hmem with rfl | hmem
        · exact ⟨List.mem_cons_self _ _, hk⟩
        · rcases (ih (k :: seen)).1 hmem with ⟨h1, h2⟩
          refine ⟨List.mem_cons_of_mem _ h1, fun hx => h2 (List.mem_cons_of_mem _ hx)⟩
      · rintro ⟨h1, h2⟩
        rcases List.mem_cons.1 h1 with rfl | h1
        · exact List.mem_cons_self _ _
        · by_cases hxk : x = k
          · subst hxk
            exact List.mem_cons_self _ _
          · exact List.mem_cons_of_mem _ ((ih (k :: seen)).2
              ⟨h1, fun hx => (List.mem_cons.1 hx).elim hxk h2⟩)

theorem firstSeenAux_append_singleton (k : Str) : ∀ (l seen : List Str),
    firstSeenAux seen (l ++ [k]) =
      if k ∈ seen ∨ k ∈ l then firstSeenAux seen l else firstSeenAux seen l ++ [k] := by
  intro l
  induction l with
  | nil =>
    intro seen
    by_cases hk : k ∈ seen
    · simp [firstSeenAux, hk]
    · simp [firstSeenAux, hk]
  | cons k' ks ih =>
    intro seen
    by_cases hk' : k' ∈ seen
    · have hc : seen.contains k' = true := by simpa using hk'
      have h1 : firstSeenAux seen ((k' :: ks) ++ [k]) = firstSeenAux seen (ks ++ [k]) := by
        simp only [List.cons_append, firstSeenAux]
        rw [if_pos hc]
        rfl
      have h2 : firstSeenAux seen (k' :: ks) = firstSeenAux seen ks := by
        simp only [firstSeenAux]
        rw [if_pos hc]
      rw [h1, h2, ih]
      by_cases hmem : k ∈ seen ∨ k ∈ ks
      · rw [if_pos hmem, if_pos ?hp1]
        case hp1 =>
          rcases hmem with h | h
          · exact Or.inl h
          · exact Or.inr (List.mem_cons_of_mem _ h)
      · rw [if_neg hmem, if_neg ?hn1]
        case hn1 =>
          intro hcon
          rcases hcon with h | h
          · exact hmem (Or.inl h)
          · rcases List.mem_cons.1 h with rfl | h
            · exact hmem (Or.inl hk')
            · exact hmem (Or.inr h)
    · have hc : ¬ (seen.contains k' = true) := by simpa using hk'
      have h1 : firstSeenAux seen ((k' :: ks) ++ [k]) =
          k' :: firstSeenAux (k' :: seen) (ks ++ [k]) := by
        simp only [List.cons_append, firstSeenAux]
        rw [if_neg hc]
        rfl
      have h2 : firstSeenAux seen (k' :: ks) = k' :: firstSeenAux (k' :: seen) ks := by
        simp only [firstSeenAux]
        rw [if_neg hc]
      rw [h1, h2, ih]
      by_cases hmem : k ∈ (k' :: seen) ∨ k ∈ ks
      · rw [if_pos hmem, if_pos ?hp2]
        case hp2 =>
          rcases hmem with h | h
          · rcases List.mem_cons.1 h with rfl | h
            · exact Or.inr (List.mem_cons_self _ _)
            · exact Or.inl h
          · exact Or.inr (List.mem_cons_of_mem _ h)
      · rw [if_neg hmem, if_neg ?hn2]
        · rfl
        case hn2 =>
          intro hcon
          apply hmem
          rcases hcon with h | h
          · exact Or.inl (List.mem_cons_of_mem _ h)
          · rcases List.mem_cons.1 h with rfl | h
            · exact Or.inl (List.mem_cons_self _ _)
            · exact Or.inr h

theorem sumAbsFor_append_singleton (E : List Transaction) (t : Transaction) (k : Str) :
    sumAbsFor (E ++ [t]) k = sumAbsFor E k + (if byCatKey t = k then |t.amount| else 0) := by
  unfold sumAbsFor
  rw [List.filter_append]
  by_cases hk : byCatKey t = k
  · simp [hk]
  · simp [hk]

theorem sumAbsFor_eq_zero (E : List Transaction) (k : Str)
    (h : k ∉ E.map byCatKey) : sumAbsFor E k = 0 := by
  unfold sumAbsFor
  have : E.filter (fun t => byCatKey t = k) = [] := by
    apply List.filter_eq_nil_iff.2
    intro t ht
    simp only [decide_eq_true_eq]
    intro hc
    exact h (List.mem_map.2 ⟨t, ht, hc⟩)
  rw [this]
  rfl

theorem mem_firstSeenKeys (x : Str) (l : List Str) : x ∈ firstSeenKeys l ↔ x ∈ l := by
  unfold firstSeenKeys
  rw [mem_firstSeenAux]
  simp

theorem firstSeenKeys_append_singleton (K : List Str) (k : Str) :
    firstSeenKeys (K ++ [k]) = if k ∈ K then firstSeenKeys K else firstSeenKeys K ++ [k] := by
  unfold firstSeenKeys
  rw [firstSeenAux_append_singleton]
  simp

theorem byCatFold_append_singleton (ts : List Transaction) (t : Transaction) :
    byCatFold (ts ++ [t]) =
      if t.amount < 0 then bucketAdd (byCatFold ts) (byCatKey t) |t.amount| else byCatFold ts := by
  unfold byCatFold
  rw [List.foldl_append]
  rfl

theorem bucketAdd_spec (E : List Transaction) (t : Transaction) :
    bucketAdd ((firstSeenKeys (E.map byCatKey)).map (fun k' => (k', sumAbsFor E k')))
        (byCatKey t) |t.amount| =
      (firstSeenKeys (E.map byCatKey ++ [byCatKey t])).map
        (fun k' => (k', sumAbsFor (E ++ [t]) k')) := by
  have hkeys : ((firstSeenKeys (E.map byCatKey)).map
      (fun k' => ((k', sumAbsFor E k') : Str × ℚ))).map Prod.fst =
      firstSeenKeys (E.map byCatKey) := by
    rw [List.map_map]
    exact List.map_id' _
  rw [firstSeenKeys_append_singleton]
  by_cases hk : byCatKey t ∈ E.map byCatKey
  · rw [if_pos hk]
    unfold bucketAdd
    rw [if_pos ?hc]
    case hc =>
      rw [hkeys]
      simpa using (mem_firstSeenKeys _ _).2 hk
    rw [List.map_map, List.map_eq_map_iff]
    intro k' hk'
    simp only [Function.comp]
    rw [sumAbsFor_append_singleton]
    by_cases h : k' = byCatKey t
    · subst h
      simp
    · rw [if_neg h, if_neg (fun hh => h hh.symm), add_zero]
  · rw [if_neg hk]
    unfold bucketAdd
    rw [if_neg ?hc2]
    case hc2 =>
      rw [hkeys]
      intro hcon
      exact hk ((mem_firstSeenKeys _ _).1 (by simpa using hcon))
    rw [List.map_append]
    congr 1
    · rw [List.map_eq_map_iff]
      intro k' hk'
      rw [sumAbsFor_append_singleton, if_neg ?hne, add_zero]
      case hne =>
        intro hh
        exact hk (hh ▸ (mem_firstSeenKeys _ _).1 hk')
    · simp only [List.map_cons, List.map_nil]
      rw [sumAbsFor_append_singleton, sumAbsFor_eq_zero E _ hk, if_pos rfl, zero_add]

theorem byCatFold_eq_spec (ts : List Transaction) :
    byCatFold ts = categoryBreakdownSpec ts := by
  induction ts using List.reverseRecOn with
  | nil => rfl
  | append_singleton ts t ih =>
    rw [byCatFold_append_singleton, ih]
    by_cases hneg : t.amount < 0
    · rw [if_pos hneg]
      have hexp : expensesOf (ts ++ [t]) = expensesOf ts ++ [t] := by
        unfold expensesOf
        rw [List.filter_append]
        simp [hneg]
      unfold categoryBreakdownSpec
      rw [hexp]
      rw [show (expensesOf ts ++ [t]).map byCatKey =
        (expensesOf ts).map byCatKey ++ [byCatKey t] from by simp]
      exact bucketAdd_spec (expensesOf ts) t
    · rw [if_neg hneg]
      have hexp : expensesOf (ts ++ [t]) = expensesOf ts := by
        unfold expensesOf
        rw [List.filter_append]
        simp [hneg]
      unfold categoryBreakdownSpec
      rw [hexp]

/-- C4: the category breakdown of the `totals` memo equals, for every filter
setting, the specification's description — `abs(amount)` summed per category
over the expense transactions (amount < 0) of the filtered set, one entry per
distinct category in first-seen order; and for a filtered set containing no
expense (all amounts non-negative) the breakdown is empty. -/
theorem byCat_expenses_only (txs : List Transaction) (fM fC : Str) :
    (totalsOf txs fM fC).byCat = categoryBreakdownSpec (filteredTx txs fM fC) ∧
    ((∀ t ∈ filteredTx txs fM fC, 0 ≤ t.amount) → (totalsOf txs fM fC).byCat = []) := by
  have h1 : (totalsOf txs fM fC).byCat = byCatFold (filteredTx txs fM fC) := rfl
  refine ⟨h1 ▸ byCatFold_eq_spec _, fun hin => ?_⟩
  rw [h1, byCatFold_eq_spec]
  have he : expensesOf (filteredTx txs fM fC) = [] := by
    unfold expensesOf
    apply List.filter_eq_nil_iff.2
    intro t ht
    simpa using not_lt.2 (hin t ht)
  unfold categoryBreakdownSpec
  rw [he]
  rfl

theorem byCat_expenses_only_witness :
    (totalsOf [⟨1, "2024-01-05".data, [], 5, "Income".data⟩] [] "All".data).byCat = [] :=
  (byCat_expenses_only [⟨1, "2024-01-05".data, [], 5, "Income".data⟩] [] "All".data).2
    (by decide)

theorem takeWhile_append_all {p : Char → Bool} (a b : Str) (h : ∀ c ∈ a, p c = true) :
    (a ++ b).takeWhile p = a ++ b.takeWhile p := by
  induction a with
  | nil => simp
  | cons c cs ih =>
    simp only [List.cons_append, List.takeWhile_cons, h c (List.mem_cons_self _ _)]
    rw [ih (fun x hx => h x (List.mem_cons_of_mem _ hx))]
    simp

theorem dropWhile_append_all {p : Char → Bool} (a b : Str) (h : ∀ c ∈ a, p c = true) :
    (a ++ b).dropWhile p = b.dropWhile p := by
  induction a with
  | nil => simp
  | cons c cs ih =>
    simp only [List.cons_append, List.dropWhile_cons, h c (List.mem_cons_self _ _)]
    exact ih (fun x hx => h x (List.mem_cons_of_mem _ hx))

theorem takeWhile_all {p : Char → Bool} (a : Str) (h : ∀ c ∈ a, p c = true) :
    a.takeWhile p = a := by
  have := takeWhile_append_all a [] h
  simpa using this

theorem dropWhile_all {p : Char → Bool} (a : Str) (h : ∀ c ∈ a, p c = true) :
    a.dropWhile p = [] := by
  have := dropWhile_append_all a [] h
  simpa using this

theorem dropWhile_eq_self_of_none {p : Char → Bool} (a : Str) (h : ∀ c ∈ a, p c = false) :
    a.dropWhile p = a := by
  cases a with
  | nil => rfl
  | cons c cs => simp [List.dropWhile_cons, h c (List.mem_cons_self _ _)]

theorem trimChars_eq_self_of_none (a : Str) (h : ∀ c ∈ a, isWSChar c = false) :
    trimChars a = a := by
  unfold trimChars
  rw [dropWhile_eq_self_of_none a h,
    dropWhile_eq_self_of_none a.reverse (fun c hc => h c (List.mem_reverse.1 hc)),
    List.reverse_reverse]

theorem splitOnChar_cons (sep c : Char) (s : Str) :
    splitOnChar sep (c :: s) =
      match splitOnChar sep s with
      | [] => [[c]]
      | cur :: rest => if c = sep then [] :: cur :: rest else (c :: cur) :: rest := rfl

theorem splitOnChar_ne_nil (sep : Char) (s : Str) : splitOnChar sep s ≠ [] := by
  induction s with
  | nil => simp [splitOnChar]
  | cons c cs ih =>
    rw [splitOnChar_cons]
    cases h : splitOnChar sep cs with
    | nil => simp
    | cons cur rest =>
      by_cases hc : c = sep <;> simp [hc]

theorem splitOnChar_nosep (sep : Char) (s : Str) (h : ∀ c ∈ s, c ≠ sep) :
    splitOnChar sep s = [s] := by
  induction s with
  | nil => rfl
  | cons c cs ih =>
    rw [splitOnChar_cons, ih (fun x hx => h x (List.mem_cons_of_mem _ hx))]
    simp [h c (List.mem_cons_self _ _)]

theorem splitOnChar_append_sep (sep : Char) (a b : Str) :
    splitOnChar sep (a ++ sep :: b) = splitOnChar sep a ++ splitOnChar sep b := by
  induction a with
  | nil =>
    rw [List.nil_append, splitOnChar_cons]
    cases h : splitOnChar sep b with
    | nil => exact absurd h (splitOnChar_ne_nil sep b)
    | cons cur rest => simp [splitOnChar]
  | cons c cs ih =>
    rw [List.cons_append, splitOnChar_cons, splitOnChar_cons, ih]
    cases h1 : splitOnChar sep cs with
    | nil => exact absurd h1 (splitOnChar_ne_nil sep cs)
    | cons cur rest =>
      cases h2 : splitOnChar sep b with
      | nil => exact absurd h2 (splitOnChar_ne_nil sep b)
      | cons cur2 rest2 =>
        by_cases hc : c = sep <;> simp [hc]

theorem mapAllButLast_eq_self (f : Str → Str) (l : List Str) (h : ∀ s ∈ l, f s = s) :
    mapAllButLast f l = l := by
  induction l with
  | nil => rfl
  | cons s rest ih =>
    cases rest with
    | nil => rfl
    | cons s2 rest2 =>
      show f s :: mapAllButLast f (s2 :: rest2) = s :: s2 :: rest2
      rw [h s (List.mem_cons_self _ _), ih (fun x hx => h x (List.mem_cons_of_mem _ hx))]

theorem dropTrailingCR_eq_self (s : Str) (h : s.getLast? ≠ some '\r') :
    dropTrailingCR s = s := by
  unfold dropTrailingCR
  rw [if_neg h]

theorem isDigit_toNat_bounds (c : Char) (h : c.isDigit = true) :
    48 ≤ c.toNat ∧ c.toNat ≤ 57 := by
  simp [Char.isDigit] at h
  exact h

theorem digit_not_special (c : Char) (h : c.isDigit = true) :
    isWSChar c = false ∧ c ≠ ',' ∧ c ≠ '\n' ∧ c ≠ '-' ∧ c ≠ '+' ∧ c ≠ '.' ∧ c ≠ '"' := by
  obtain ⟨h1, h2⟩ := isDigit_toNat_bounds c h
  have hne : ∀ x : Char, x.toNat < 48 → c ≠ x := by
    intro x hx hceq
    rw [hceq] at h1
    omega
  refine ⟨?_, hne ',' (by decide), hne '\n' (by decide), hne '-' (by decide),
    hne '+' (by decide), hne '.' (by decide), hne '"' (by decide)⟩
  unfold isWSChar
  rw [decide_eq_false_iff_not]
  omega

theorem digitChar_facts (d : ℕ) (hd : d < 10) :
    (Char.ofNat (48 + d)).isDigit = true ∧ digitVal (Char.ofNat (48 + d)) = d := by
  interval_cases d <;> exact ⟨by decide, by decide⟩

theorem natDigitsRev_lt10 : ∀ (fuel n : ℕ), ∀ d ∈ natDigitsRev fuel n, d < 10 := by
  intro fuel
  induction fuel with
  | zero => intro n d hd; simp [natDigitsRev] at hd
  | succ f ih =>
    intro n d hd
    unfold natDigitsRev at hd
    by_cases hn : n = 0
    · rw [if_pos hn] at hd
      simp at hd
    · rw [if_neg hn] at hd
      rcases List.mem_cons.1 hd with rfl | hd
      · exact Nat.mod_lt _ (by norm_num)
      · exact ih _ _ hd

theorem valLE_natDigitsRev : ∀ (fuel n : ℕ), n ≤ fuel → valLE (natDigitsRev fuel n) = n := by
  intro fuel
  induction fuel with
  | zero => intro n h; interval_cases n; rfl
  | succ f ih =>
    intro n h
    unfold natDigitsRev
    by_cases hn : n = 0
    · rw [if_pos hn, hn]
      rfl
    · rw [if_neg hn]
      unfold valLE
      rw [List.foldr_cons]
      have hrec : n / 10 ≤ f := by omega
      have hrest := ih (n / 10) hrec
      unfold valLE at hrest
      rw [hrest]
      omega

theorem natDigitsRev_length_le : ∀ (fuel n j : ℕ), n < 10 ^ j → (natDigitsRev fuel n).length ≤ j := by
  intro fuel
  induction fuel with
  | zero => intro n j h; simp [natDigitsRev]
  | succ f ih =>
    intro n j h
    unfold natDigitsRev
    by_cases hn : n = 0
    · simp [hn]
    · rw [if_neg hn]
      cases j with
      | zero =>
        simp at h
        omega
      | succ j' =>
        simp only [List.length_cons]
        rw [pow_succ] at h
        have hdiv : n / 10 < 10 ^ j' := by omega
        have := ih (n / 10) j' hdiv
        omega

theorem digitsToNat_foldl (b : Str) : ∀ s : ℕ,
    b.foldl (fun n c => 10 * n + digitVal c) s = s * 10 ^ b.length + digitsToNat b := by
  induction b with
  | nil => intro s; simp [digitsToNat]
  | cons c cs ih =>
    intro s
    rw [List.foldl_cons, ih (10 * s + digitVal c)]
    have h2 : digitsToNat (c :: cs) = digitVal c * 10 ^ cs.length + digitsToNat cs := by
      unfold digitsToNat
      rw [List.foldl_cons]
      have := ih (10 * 0 + digitVal c)
      simpa using this
    rw [h2]
    simp only [List.length_cons, pow_succ]
    ring

theorem digitsToNat_append (a b : Str) :
    digitsToNat (a ++ b) = digitsToNat a * 10 ^ b.length + digitsToNat b := by
  unfold digitsToNat
  rw [List.foldl_append]
  exact digitsToNat_foldl b _

theorem digitsToNat_replicate_zero (z : ℕ) (s : Str) :
    digitsToNat (List.replicate z '0' ++ s) = digitsToNat s := by
  induction z with
  | zero => simp
  | succ z ih =>
    rw [List.replicate_succ, List.cons_append]
    show digitsToNat ('0' :: (List.replicate z '0' ++ s)) = digitsToNat s
    unfold digitsToNat
    rw [List.foldl_cons]
    show List.foldl _ (10 * 0 + digitVal '0') _ = _
    rw [show (10 * 0 + digitVal '0') = 0 from by decide]
    exact ih

theorem natToChars_ne_nil (n : ℕ) : natToChars n ≠ [] := by
  unfold natToChars
  by_cases hn : n = 0
  · simp [hn]
  · rw [if_neg hn]
    cases n with
    | zero => exact absurd rfl hn
    | succ m =>
      simp only [natDigitsRev, if_neg hn]
      simp

theorem natToChars_digits (n : ℕ) : ∀ c ∈ natToChars n, c.isDigit = true := by
  unfold natToChars
  by_cases hn : n = 0
  · rw [if_pos hn]
    intro c hc
    rw [List.mem_singleton.1 hc]
    decide
  · rw [if_neg hn]
    intro c hc
    rcases List.mem_map.1 hc with ⟨d, hd, rfl⟩
    exact (digitChar_facts d (natDigitsRev_lt10 n n d (List.mem_reverse.1 hd))).1

theorem digitsToNat_rev_map (ds : List ℕ) (h : ∀ d ∈ ds, d < 10) :
    digitsToNat ((ds.reverse).map (fun d => Char.ofNat (48 + d))) = valLE ds := by
  induction ds with
  | nil => rfl
  | cons d ds ih =>
    rw [List.reverse_cons, List.map_append, digitsToNat_append]
    rw [ih (fun x hx => h x (List.mem_cons_of_mem _ hx))]
    have hd := h d (List.mem_cons_self _ _)
    have hsing : digitsToNat [Char.ofNat (48 + d)] = d := by
      unfold digitsToNat
      rw [List.foldl_cons]
      show List.foldl _ (10 * 0 + digitVal (Char.ofNat (48 + d))) [] = d
      rw [(digitChar_facts d hd).2]
      simp
    simp only [List.map_cons, List.map_nil, List.length_cons, List.length_nil]
    rw [hsing]
    unfold valLE
    rw [List.foldr_cons]
    show valLE ds * 10 ^ 1 + d = d + 10 * valLE ds
    ring

theorem digitsToNat_natToChars (n : ℕ) : digitsToNat (natToChars n) = n := by
  unfold natToChars
  by_cases hn : n = 0
  · rw [if_pos hn, hn]
    decide
  · rw [if_neg hn]
    rw [digitsToNat_rev_map _ (natDigitsRev_lt10 n n)]
    exact valLE_natDigitsRev n n le_rfl

theorem leftPad0_digits (k : ℕ) (s : Str) (h : ∀ c ∈ s, c.isDigit = true) :
    ∀ c ∈ leftPad0 k s, c.isDigit = true := by
  intro c hc
  unfold leftPad0 at hc
  rcases List.mem_append.1 hc with h1 | h1
  · rw [List.eq_of_mem_replicate h1]
    decide
  · exact h c h1

theorem leftPad0_length (k : ℕ) (s : Str) (h : s.length ≤ k) : (leftPad0 k s).length = k := by
  unfold leftPad0
  rw [List.length_append, List.length_replicate]
  omega

theorem digitsToNat_leftPad0 (k : ℕ) (s : Str) :
    digitsToNat (leftPad0 k s) = digitsToNat s :=
  digitsToNat_replicate_zero _ _

theorem parseExpPart_nil : parseExpPart [] = 0 := rfl

theorem parseMantissa_digits (ipc : Str) (hipc : ipc ≠ [])
    (hip : ∀ c ∈ ipc, c.isDigit = true) :
    parseMantissa ipc = some ((digitsToNat ipc : ℚ)) := by
  have e4 : ipc.takeWhile Char.isDigit = ipc := takeWhile_all _ hip
  have e5 : ipc.dropWhile Char.isDigit = [] := dropWhile_all _ hip
  simp only [parseMantissa, e4, e5, List.head?_nil, List.length_nil, parseExpPart_nil]
  norm_num [hipc, parseExpPart_nil]

theorem parseMantissa_frac (ipc fpc : Str) (hip : ∀ c ∈ ipc, c.isDigit = true)
    (hfp : ∀ c ∈ fpc, c.isDigit = true) :
    parseMantissa (ipc ++ '.' :: fpc) =
      if ipc = [] ∧ fpc = [] then none
      else some ((digitsToNat (ipc ++ fpc) : ℚ) / 10 ^ fpc.length) := by
  have e4 : (ipc ++ '.' :: fpc).takeWhile Char.isDigit = ipc := by
    rw [takeWhile_append_all _ _ hip, List.takeWhile_cons]
    simp
  have e5 : (ipc ++ '.' :: fpc).dropWhile Char.isDigit = '.' :: fpc := by
    rw [dropWhile_append_all _ _ hip, List.dropWhile_cons]
    simp
  have e7 : fpc.takeWhile Char.isDigit = fpc := takeWhile_all _ hfp
  have e8 : fpc.dropWhile Char.isDigit = [] := dropWhile_all _ hfp
  simp only [parseMantissa, e4, e5, List.head?_cons, List.tail_cons, e7, e8,
    parseExpPart_nil]
  norm_num [parseExpPart_nil]

theorem parseJSFloat_of_digit_head (s : Str) (c : Char) (cs : Str) (hs : s = c :: cs)
    (hc : c.isDigit = true) : parseJSFloat s = parseMantissa s := by
  subst hs
  obtain ⟨hws, hcom, hnl, hdash, hplus, hdot, hquote⟩ := digit_not_special c hc
  have e1 : (c :: cs).dropWhile isWSChar = c :: cs := by
    rw [List.dropWhile_cons]
    simp [hws]
  simp only [parseJSFloat, e1, List.head?_cons, Option.some.injEq]
  simp only [hdash, hplus, or_self, if_false]
  cases hm : parseMantissa (c :: cs) with
  | none => rfl
  | some v =>
    simp [hdash]

theorem parseJSFloat_neg_digit_head (s : Str) (c : Char) (cs : Str) (hs : s = c :: cs)
    (hc : c.isDigit = true) :
    parseJSFloat ('-' :: s) = (parseMantissa s).map (fun v => -v) := by
  subst hs
  have e1 : ('-' :: (c :: cs)).dropWhile isWSChar = '-' :: (c :: cs) := by
    rw [List.dropWhile_cons]
    simp [show isWSChar '-' = false from by decide]
  simp only [parseJSFloat, e1, List.head?_cons, Option.some.injEq, List.tail_cons]
  simp

theorem findK_dvd (d : ℕ) (h : d ∣ 10 ^ d) : d ∣ 10 ^ findK d := by
  unfold findK
  cases hf : (List.range (d + 1)).find? (fun k => decide (d ∣ 10 ^ k)) with
  | none =>
    exfalso
    have := List.find?_eq_none.1 hf d (List.mem_range.2 (by omega))
    simp at this
    exact this h
  | some k =>
    have := List.find?_some hf
    simpa using this

theorem natToChars_length_le (a j : ℕ) (h : a < 10 ^ j) (hj : 1 ≤ j) :
    (natToChars a).length ≤ j := by
  unfold natToChars
  split
  · simpa using hj
  · rw [List.length_map, List.length_reverse]
    exact natDigitsRev_length_le a a j h

theorem parse_numToString (q : ℚ) (hq : IsDecimal q) :
    parseJSFloat (numToString q) = some q := by
  have hdpos : (0 : ℚ) < (q.den : ℚ) := by exact_mod_cast q.pos
  have hd0 : (q.den : ℚ) ≠ 0 := ne_of_gt hdpos
  have hdvd : q.den ∣ 10 ^ findK q.den := findK_dvd q.den hq
  set k := findK q.den with hk
  set n := q.num.natAbs with hn
  set m := n * (10 ^ k / q.den) with hm
  have hmd : m * q.den = n * 10 ^ k := by
    rw [hm, mul_assoc, Nat.div_mul_cancel hdvd]
  have hval : (m : ℚ) / 10 ^ k = (n : ℚ) / (q.den : ℚ) := by
    rw [div_eq_div_iff (by positivity) hd0]
    exact_mod_cast hmd
  have habs : (n : ℚ) / (q.den : ℚ) = |q| := by
    rw [hn]
    rw [show ((q.num.natAbs : ℕ) : ℚ) = |(q.num : ℚ)| from by
      rw [Int.cast_natAbs]
      exact Int.cast_abs]
    rw [← abs_of_pos hdpos, ← abs_div, Rat.num_div_den]
  have hmq : (m : ℚ) / 10 ^ k = |q| := hval.trans habs
  have hnum : numToString q =
      (if q < 0 then ['-'] else []) ++
        (natToChars (m / 10 ^ k) ++
          (if k = 0 then [] else '.' :: leftPad0 k (natToChars (m % 10 ^ k)))) := by
    simp only [numToString]
    rw [List.append_assoc]
  have hip : ∀ c ∈ natToChars (m / 10 ^ k), c.isDigit = true := natToChars_digits _
  have hipne : natToChars (m / 10 ^ k) ≠ [] := natToChars_ne_nil _
  obtain ⟨c, cs, hcc⟩ := List.exists_cons_of_ne_nil hipne
  have hcdig : c.isDigit = true := hip c (hcc ▸ List.mem_cons_self _ _)
  by_cases hk0 : k = 0
  · have hdiv : m / 10 ^ k = m := by
      rw [hk0]
      simp
    have hm1 : (m : ℚ) = |q| := by
      rw [hk0] at hmq
      simpa using hmq
    rw [hnum, if_pos hk0, List.append_nil]
    by_cases hqneg : q < 0
    · rw [if_pos hqneg, List.singleton_append]
      rw [parseJSFloat_neg_digit_head _ c cs hcc hcdig]
      rw [parseMantissa_digits _ hipne hip]
      rw [Option.map_some']
      rw [digitsToNat_natToChars, hdiv, hm1, abs_of_neg hqneg, neg_neg]
    · rw [if_neg hqneg, List.nil_append]
      rw [parseJSFloat_of_digit_head _ c cs hcc hcdig]
      rw [parseMantissa_digits _ hipne hip]
      rw [digitsToNat_natToChars, hdiv, hm1, abs_of_nonneg (not_lt.1 hqneg)]
  · have hk1 : 1 ≤ k := by omega
    have hmodlt : m % 10 ^ k < 10 ^ k := Nat.mod_lt _ (by positivity)
    have hpadlen : (leftPad0 k (natToChars (m % 10 ^ k))).length = k :=
      leftPad0_length _ _ (natToChars_length_le _ _ hmodlt hk1)
    have hpaddig : ∀ x ∈ leftPad0 k (natToChars (m % 10 ^ k)), x.isDigit = true :=
      leftPad0_digits _ _ (natToChars_digits _)
    have hvalnum : (digitsToNat
        (natToChars (m / 10 ^ k) ++ leftPad0 k (natToChars (m % 10 ^ k))) : ℚ) /
          10 ^ (leftPad0 k (natToChars (m % 10 ^ k))).length = |q| := by
      rw [digitsToNat_append, digitsToNat_natToChars, digitsToNat_leftPad0,
        digitsToNat_natToChars, hpadlen]
      rw [Nat.div_add_mod' m (10 ^ k)]
      exact hmq
    rw [hnum, if_neg hk0]
    by_cases hqneg : q < 0
    · rw [if_pos hqneg, List.singleton_append]
      rw [parseJSFloat_neg_digit_head _ c
        (cs ++ '.' :: leftPad0 k (natToChars (m % 10 ^ k)))
        (by rw [hcc, List.cons_append]) hcdig]
      rw [parseMantissa_frac _ _ hip hpaddig]
      rw [if_neg (by simp [hipne])]
      rw [Option.map_some']
      rw [hvalnum, abs_of_neg hqneg, neg_neg]
    · rw [if_neg hqneg, List.nil_append]
      rw [parseJSFloat_of_digit_head _ c
        (cs ++ '.' :: leftPad0 k (natToChars (m % 10 ^ k)))
        (by rw [hcc, List.cons_append]) hcdig]
      rw [parseMantissa_frac _ _ hip hpaddig]
      rw [if_neg (by simp [hipne])]
      rw [hvalnum, abs_of_nonneg (not_lt.1 hqneg)]

theorem escape_eq_self (s : Str) (h : ∀ c ∈ s, c ≠ '"') :
    s.foldr (fun c acc => (if c = '"' then ['"', '"'] else [c]) ++ acc) [] = s := by
  induction s with
  | nil => rfl
  | cons c cs ih =>
    rw [List.foldr_cons, if_neg (h c (List.mem_cons_self _ _)),
      ih (fun x hx => h x (List.mem_cons_of_mem _ hx))]
    rfl

theorem cleanCSV_eq_self (s : Str) (h : noSpecialChars s) : cleanCSV s = s := by
  have hq : ∀ c ∈ s, c ≠ '"' := fun c hc => (h c hc).2.1
  simp only [cleanCSV]
  rw [if_neg ?hno]
  case hno =>
    intro hcon
    rcases List.any_eq_true.1 hcon with ⟨c, hc, hcp⟩
    obtain ⟨h1, h2, h3⟩ := h c hc
    simp [h1, h2, h3] at hcp
  exact escape_eq_self s hq

theorem numToString_chars (q : ℚ) :
    ∀ c ∈ numToString q, c = '-' ∨ c = '.' ∨ c.isDigit = true := by
  intro c hc
  simp only [numToString] at hc
  rcases List.mem_append.1 hc with hc1 | hcf
  · rcases List.mem_append.1 hc1 with hcs | hci
    · left
      revert hcs
      split
      · intro h
        simpa using h
      · intro h
        simp at h
    · right; right
      exact natToChars_digits _ c hci
  · revert hcf
    split
    · intro h
      simp at h
    · intro h
      rcases List.mem_cons.1 h with rfl | h
      · right; left; rfl
      · right; right
        exact leftPad0_digits _ _ (natToChars_digits _) c h

theorem numToString_safe (q : ℚ) :
    ∀ c ∈ numToString q, c ≠ ',' ∧ c ≠ '\n' ∧ isWSChar c = false := by
  intro c hc
  rcases numToString_chars q c hc with rfl | rfl | hd
  · exact ⟨by decide, by decide, by decide⟩
  · exact ⟨by decide, by decide, by decide⟩
  · obtain ⟨hws, hcom, hnl, _⟩ := digit_not_special c hd
    exact ⟨hcom, hnl, hws⟩

theorem numToString_ne_nil (q : ℚ) : numToString q ≠ [] := by
  simp only [numToString]
  intro hcon
  rcases List.append_eq_nil.1 hcon with ⟨h1, h2⟩
  rcases List.append_eq_nil.1 h1 with ⟨h3, h4⟩
  exact natToChars_ne_nil _ h4

theorem trimChars_numToString (q : ℚ) : trimChars (numToString q) = numToString q :=
  trimChars_eq_self_of_none _ (fun c hc => (numToString_safe q c hc).2.2)

theorem typeColOf_cases (t : TxData) :
    typeColOf t = "expense".data ∨ typeColOf t = "income".data := by
  unfold typeColOf
  split
  · exact Or.inl rfl
  · exact Or.inr rfl

theorem typeColOf_facts (t : TxData) :
    (∀ c ∈ typeColOf t, c ≠ ',' ∧ c ≠ '\n') ∧ trimChars (typeColOf t) = typeColOf t ∧
    splitOnChar ',' (typeColOf t) = [typeColOf t] ∧ typeColOf t ≠ [] := by
  rcases typeColOf_cases t with h | h <;> rw [h] <;>
    exact ⟨by decide, by decide, by decide, by decide⟩

theorem rowOf_eq (t : TxData) :
    rowOf t = t.date ++ ',' :: (cleanCSV t.description ++ ',' ::
      (numToString t.amount ++ ',' :: (cleanCSV t.category ++ ',' :: typeColOf t))) := rfl

theorem partsOf_rowOf (t : TxData) (h : SafeTx t) :
    partsOf (rowOf t) =
      [t.date, t.description, numToString t.amount, t.category, typeColOf t] := by
  obtain ⟨hd1, hc1, hd2, hc2, hcne, hdate, hdtrim, hdlen, hdec⟩ := h
  obtain ⟨hty1, hty2, hty3, hty4⟩ := typeColOf_facts t
  unfold partsOf
  rw [rowOf_eq, cleanCSV_eq_self _ hd1, cleanCSV_eq_self _ hc1]
  rw [splitOnChar_append_sep, splitOnChar_append_sep, splitOnChar_append_sep,
    splitOnChar_append_sep]
  rw [splitOnChar_nosep _ _ (fun c hc => (hdate c hc).1),
    splitOnChar_nosep _ _ (fun c hc => (hd1 c hc).1),
    splitOnChar_nosep _ _ (fun c hc => (numToString_safe _ c hc).1),
    splitOnChar_nosep _ _ (fun c hc => (hc1 c hc).1), hty3]
  show List.map trimChars [t.date, t.description, numToString t.amount, t.category,
    typeColOf t] = _
  rw [List.map_cons, List.map_cons, List.map_cons, List.map_cons, List.map_cons]
  rw [hdtrim, hd2, trimChars_numToString, hc2, hty2]
  rfl

theorem getLast?_append_cons (a b : Str) (c : Char) (hb : b ≠ []) :
    (a ++ c :: b).getLast? = b.getLast? := by
  rw [List.getLast?_append_of_ne_nil a (by simp : (c :: b) ≠ [])]
  cases b with
  | nil => exact absurd rfl hb
  | cons x xs => exact List.getLast?_cons_cons

theorem rowOf_getLast (t : TxData) : (rowOf t).getLast? = some 'e' := by
  rw [rowOf_eq]
  obtain ⟨_, _, _, hty4⟩ := typeColOf_facts t
  rw [getLast?_append_cons _ _ _ (by simp)]
  rw [getLast?_append_cons _ _ _ (by simp)]
  rw [getLast?_append_cons _ _ _ (by simp)]
  rw [getLast?_append_cons _ _ _ hty4]
  rcases typeColOf_cases t with h | h <;> rw [h] <;> decide

theorem rowOf_ne_nil (t : TxData) : rowOf t ≠ [] := by
  rw [rowOf_eq]
  intro hcon
  rcases List.append_eq_nil.1 hcon with ⟨_, h2⟩
  exact absurd h2 (by simp)

theorem rowOf_no_newline (t : TxData) (h : SafeTx t) : ∀ c ∈ rowOf t, c ≠ '\n' := by
  obtain ⟨hd1, hc1, _, _, _, hdate, _, _, _⟩ := h
  intro c hc
  rw [rowOf_eq, cleanCSV_eq_self _ hd1, cleanCSV_eq_self _ hc1] at hc
  obtain ⟨hty1, _, _, _⟩ := typeColOf_facts t
  rcases List.mem_append.1 hc with h1 | h1
  · exact (hdate c h1).2
  rcases List.mem_cons.1 h1 with rfl | h1
  · decide
  rcases List.mem_append.1 h1 with h2 | h2
  · exact (hd1 c h2).2.2
  rcases List.mem_cons.1 h2 with rfl | h2
  · decide
  rcases List.mem_append.1 h2 with h3 | h3
  · exact (numToString_safe _ c h3).2.1
  rcases List.mem_cons.1 h3 with rfl | h3
  · decide
  rcases List.mem_append.1 h3 with h4 | h4
  · exact (hc1 c h4).2.2
  rcases List.mem_cons.1 h4 with rfl | h4
  · decide
  · exact (hty1 c h4).2

theorem split_join_newline (rows : List Str)
    (hr : ∀ r ∈ rows, ∀ c ∈ r, c ≠ '\n') :
    splitOnChar '\n' (joinWithChar '\n' rows) =
      if rows = [] then [[]] else rows := by
  induction rows with
  | nil => rfl
  | cons r rest ih =>
    cases rest with
    | nil =>
      show splitOnChar '\n' r = _
      rw [splitOnChar_nosep _ _ (hr r (List.mem_cons_self _ _))]
      rfl
    | cons r2 rest2 =>
      show splitOnChar '\n' (r ++ '\n' :: joinWithChar '\n' (r2 :: rest2)) = _
      rw [splitOnChar_append_sep,
        splitOnChar_nosep _ _ (hr r (List.mem_cons_self _ _)),
        ih (fun x hx => hr x (List.mem_cons_of_mem _ hx))]
      simp

theorem linesOf_exportText (l : List TxData) (h : ∀ t ∈ l, SafeTx t) :
    linesOf (exportText l) =
      "date,description,amount,category,type".data :: l.map rowOf := by
  by_cases hl : l = []
  · subst hl
    decide
  have hmapne : l.map rowOf ≠ [] := by simpa using hl
  have hrows : ∀ r ∈ l.map rowOf, ∀ c ∈ r, c ≠ '\n' := by
    intro r hr
    rcases List.mem_map.1 hr with ⟨t, ht, rfl⟩
    exact rowOf_no_newline t (h t ht)
  have hsplit : splitOnChar '\n' (exportText l) =
      "date,description,amount,category,type".data :: l.map rowOf := by
    show splitOnChar '\n' ("date,description,amount,category,type".data ++
      '\n' :: joinWithChar '\n' (l.map rowOf)) = _
    rw [splitOnChar_append_sep,
      splitOnChar_nosep _ _ (by decide :
        ∀ c ∈ "date,description,amount,category,type".data, c ≠ '\n'),
      split_join_newline _ hrows]
    rw [if_neg hmapne]
    rfl
  unfold linesOf jsSplitLines
  rw [hsplit]
  rw [mapAllButLast_eq_self _ _ ?heq]
  case heq =>
    intro s hs
    rcases List.mem_cons.1 hs with rfl | hs
    · exact dropTrailingCR_eq_self _ (by decide)
    · rcases List.mem_map.1 hs with ⟨t, ht, rfl⟩
      rw [dropTrailingCR_eq_self _ (by rw [rowOf_getLast t]; decide)]
  apply List.filter_eq_self.2
  intro s hs
  rcases List.mem_cons.1 hs with rfl | hs
  · decide
  · rcases List.mem_map.1 hs with ⟨t, ht, rfl⟩
    simpa using rowOf_ne_nil t

theorem colsOf_export (l : List TxData) (h : ∀ t ∈ l, SafeTx t) :
    colsOf (exportText l) =
      ["date".data, "description".data, "amount".data, "category".data, "type".data] := by
  unfold colsOf
  rw [linesOf_exportText l h]
  rfl

theorem export_hasHeader (l : List TxData) (h : ∀ t ∈ l, SafeTx t) :
    hasHeaderOf (exportText l) = true := by
  unfold hasHeaderOf
  rw [colsOf_export l h]
  decide

theorem export_hasType (l : List TxData) (h : ∀ t ∈ l, SafeTx t) :
    hasTypeOf (exportText l) = true := by
  unfold hasTypeOf colIdx
  rw [colsOf_export l h, export_hasHeader l h]
  decide

theorem export_fieldIdx (l : List TxData) (h : ∀ t ∈ l, SafeTx t) :
    fieldIdx (exportText l) "date".data 0 = 0 ∧
    fieldIdx (exportText l) "description".data 1 = 1 ∧
    fieldIdx (exportText l) "amount".data 2 = 2 ∧
    fieldIdx (exportText l) "category".data 3 = 3 ∧
    (colIdx (exportText l) "type".data).getD 0 = 4 := by
  unfold fieldIdx colIdx
  rw [colsOf_export l h, export_hasHeader l h]
  refine ⟨?_, ?_, ?_, ?_, ?_⟩ <;> decide

theorem dataRowsOf_export (l : List TxData) (h : ∀ t ∈ l, SafeTx t) :
    dataRowsOf (exportText l) = l.map rowOf := by
  unfold dataRowsOf
  rw [export_hasHeader l h, linesOf_exportText l h]
  rfl

theorem parseLineOf_export (l : List TxData) (h : ∀ t ∈ l, SafeTx t)
    (t : TxData) (ht : t ∈ l) : parseLineOf (exportText l) (rowOf t) = t := by
  obtain ⟨hfi1, hfi2, hfi3, hfi4, hfi5⟩ := export_fieldIdx l h
  have hsafe := h t ht
  have hparts := partsOf_rowOf t hsafe
  obtain ⟨hd1, hc1, hd2, hc2, hcne, hdate, hdtrim, hdlen, hdec⟩ := hsafe
  have hdateF : dateFieldOf (exportText l) (rowOf t) = t.date := by
    unfold dateFieldOf
    rw [hfi1, hparts]
    rw [show ([t.date, t.description, numToString t.amount, t.category,
      typeColOf t].getD 0 [] : Str) = t.date from rfl]
    exact jsOrStr_nil_right _
  have hdescF : descFieldOf (exportText l) (rowOf t) = t.description := by
    unfold descFieldOf
    rw [hfi2, hparts]
    rw [show ([t.date, t.description, numToString t.amount, t.category,
      typeColOf t].getD 1 [] : Str) = t.description from rfl]
    exact jsOrStr_nil_right _
  have hamtF : amountFieldOf (exportText l) (rowOf t) = numToString t.amount := by
    unfold amountFieldOf
    rw [hfi3, hparts]
    rw [show ([t.date, t.description, numToString t.amount, t.category,
      typeColOf t].getD 2 [] : Str) = numToString t.amount from rfl]
    exact jsOrStr_of_ne_nil (numToString_ne_nil _) _
  have hcatF : catFieldOf (exportText l) (rowOf t) = t.category := by
    unfold catFieldOf
    rw [hfi4, hparts]
    rw [show ([t.date, t.description, numToString t.amount, t.category,
      typeColOf t].getD 3 [] : Str) = t.category from rfl]
    exact jsOrStr_of_ne_nil hcne _
  have htyF : typeFieldOf (exportText l) (rowOf t) = typeColOf t := by
    unfold typeFieldOf
    rw [export_hasType l h, if_pos rfl, hfi5, hparts]
    rw [show ([t.date, t.description, numToString t.amount, t.category,
      typeColOf t].getD 4 [] : Str) = typeColOf t from rfl]
    rw [jsOrStr_of_ne_nil (typeColOf_facts t).2.2.2 _]
    rcases typeColOf_cases t with hty | hty <;> rw [hty] <;> decide
  have hamt : jsOrZero (parseJSFloat (amountFieldOf (exportText l) (rowOf t)))
      = t.amount := by
    rw [hamtF, parse_numToString _ hdec]
    rfl
  simp only [parseLineOf, export_hasType l h, hamt, hdateF, hdescF, hcatF, htyF,
    eq_self_iff_true, if_true]
  rw [List.take_of_length_le hdlen]
  by_cases hneg : t.amount < 0
  · rw [show typeColOf t = "expense".data from by unfold typeColOf; rw [if_pos hneg]]
    rw [if_pos (by decide : ("exp".data.isPrefixOf "expense".data) = true)]
    rw [abs_of_neg hneg, neg_neg]
  · rw [show typeColOf t = "income".data from by unfold typeColOf; rw [if_neg hneg]]
    rw [if_neg (by decide : ¬ ("exp".data.isPrefixOf "income".data) = true)]
    rw [abs_of_nonneg (not_lt.1 hneg)]

theorem importParse_exportText (l : List TxData) (h : ∀ t ∈ l, SafeTx t) :
    importParse (exportText l) = l := by
  unfold importParse
  rw [dataRowsOf_export l h, List.map_map]
  calc l.map (parseLineOf (exportText l) ∘ rowOf)
      = l.map id := List.map_eq_map_iff.2 (fun t ht => parseLineOf_export l h t ht)
    _ = l := List.map_id l

/-- C3 (amended): on the safe subset — description and category free of
commas, quotes and newlines AND whitespace-stable, a non-empty category, a
comma/newline-free whitespace-stable date of at most 10 characters, and a
decimal-representable amount — decoding an exported CSV text reproduces the
transaction data exactly, and in particular
`encode(decode(encode(l))) = encode(l)`. -/
theorem csv_roundtrip (l : List TxData) (h : ∀ t ∈ l, SafeTx t) :
    importParse (exportText l) = l ∧
    exportText (importParse (exportText l)) = exportText l := by
  have hd := importParse_exportText l h
  exact ⟨hd, by rw [hd]⟩

theorem csv_roundtrip_witness :
    (∀ t ∈ ([⟨"2024-01-05".data, "Coffee".data, (-3 : ℚ), "Dining Out".data⟩] :
        List TxData), SafeTx t) ∧
    (importParse (exportText
        [⟨"2024-01-05".data, "Coffee".data, (-3 : ℚ), "Dining Out".data⟩]) =
      [⟨"2024-01-05".data, "Coffee".data, (-3 : ℚ), "Dining Out".data⟩] ∧
    exportText (importParse (exportText
        [⟨"2024-01-05".data, "Coffee".data, (-3 : ℚ), "Dining Out".data⟩])) =
      exportText [⟨"2024-01-05".data, "Coffee".data, (-3 : ℚ), "Dining Out".data⟩]) :=
  ⟨by decide, csv_roundtrip _ (by decide)⟩

/-- C3 (counterexample): with only the claimed no-comma/quote/newline
restriction on the text fields, the round trip fails — a description with a
leading space (here `" a"`) is trimmed by the cell-level `trim` of import, so
re-encoding drops the space. -/
theorem csv_roundtrip_refuted :
    noSpecialChars " a".data ∧ noSpecialChars "Food".data ∧
    exportText (importParse (exportText
      [⟨"2024-01-05".data, " a".data, (-3 : ℚ), "Food".data⟩])) ≠
    exportText [⟨"2024-01-05".data, " a".data, (-3 : ℚ), "Food".data⟩] := by
  refine ⟨by decide, by decide, ?_⟩
  have hpf : parseJSFloat "-3".data = some ((-3 : ℚ)) := by
    rw [show "-3".data = '-' :: "3".data from rfl]
    rw [parseJSFloat_neg_digit_head _ '3' [] rfl (by decide)]
    rw [parseMantissa_digits _ (by decide) (by decide)]
    rw [Option.map_some']
    rw [show digitsToNat "3".data = 3 from by decide]
    norm_num
  have h1 : dataRowsOf (exportText
      [⟨"2024-01-05".data, " a".data, (-3 : ℚ), "Food".data⟩]) =
      ["2024-01-05, a,-3,Food,expense".data] := by decide
  have h2 : importParse (exportText
      [⟨"2024-01-05".data, " a".data, (-3 : ℚ), "Food".data⟩]) =
      [parseLineOf (exportText [⟨"2024-01-05".data, " a".data, (-3 : ℚ), "Food".data⟩])
        "2024-01-05, a,-3,Food,expense".data] := by
    unfold importParse
    rw [h1]
    rfl
  have hamt : (parseLineOf
      (exportText [⟨"2024-01-05".data, " a".data, (-3 : ℚ), "Food".data⟩])
      "2024-01-05, a,-3,Food,expense".data).amount = (-3 : ℚ) := by
    simp only [parseLineOf,
      show hasTypeOf (exportText
        [⟨"2024-01-05".data, " a".data, (-3 : ℚ), "Food".data⟩]) = true from by decide,
      show typeFieldOf (exportText
          [⟨"2024-01-05".data, " a".data, (-3 : ℚ), "Food".data⟩])
          "2024-01-05, a,-3,Food,expense".data = "expense".data from by decide,
      show amountFieldOf (exportText
          [⟨"2024-01-05".data, " a".data, (-3 : ℚ), "Food".data⟩])
          "2024-01-05, a,-3,Food,expense".data = "-3".data from by decide,
      hpf, eq_self_iff_true, if_true]
    rw [if_pos (by decide : ("exp".data.isPrefixOf "expense".data) = true)]
    norm_num [jsOrZero]
  have hp : parseLineOf
      (exportText [⟨"2024-01-05".data, " a".data, (-3 : ℚ), "Food".data⟩])
      "2024-01-05, a,-3,Food,expense".data =
      ⟨"2024-01-05".data, "a".data, (-3 : ℚ), "Food".data⟩ := by
    have heta : parseLineOf
        (exportText [⟨"2024-01-05".data, " a".data, (-3 : ℚ), "Food".data⟩])
        "2024-01-05, a,-3,Food,expense".data =
        ⟨(parseLineOf (exportText
            [⟨"2024-01-05".data, " a".data, (-3 : ℚ), "Food".data⟩])
            "2024-01-05, a,-3,Food,expense".data).date,
          (parseLineOf (exportText
            [⟨"2024-01-05".data, " a".data, (-3 : ℚ), "Food".data⟩])
            "2024-01-05, a,-3,Food,expense".data).description,
          (parseLineOf (exportText
            [⟨"2024-01-05".data, " a".data, (-3 : ℚ), "Food".data⟩])
            "2024-01-05, a,-3,Food,expense".data).amount,
          (parseLineOf (exportText
            [⟨"2024-01-05".data, " a".data, (-3 : ℚ), "Food".data⟩])
            "2024-01-05, a,-3,Food,expense".data).category⟩ := rfl
    rw [heta, hamt]
    rw [show (parseLineOf (exportText
        [⟨"2024-01-05".data, " a".data, (-3 : ℚ), "Food".data⟩])
        "2024-01-05, a,-3,Food,expense".data).date = "2024-01-05".data from by decide]
    rw [show (parseLineOf (exportText
        [⟨"2024-01-05".data, " a".data, (-3 : ℚ), "Food".data⟩])
        "2024-01-05, a,-3,Food,expense".data).description = "a".data from by decide]
    rw [show (parseLineOf (exportText
        [⟨"2024-01-05".data, " a".data, (-3 : ℚ), "Food".data⟩])
        "2024-01-05, a,-3,Food,expense".data).category = "Food".data from by decide]
  rw [h2, hp]
  decide
